import Mathlib

/-!
# Consent string parser (`consent.go`)

A shallow embedding of the Go package `consent`: the bit reader `bits`, the
`RangeEntry` type, the constructor `NewUserConsent` and the three queries
`IsPurposeAllowed`, `ArePurposesAllowed` and `IsVendorAllowed`.

Conventions of the embedding.

* Go's `int` is the 64-bit two's complement integer.  It is modelled by `Int`;
  every addition, subtraction or shift of the source whose operands are not
  bounded by the surrounding code is wrapped by `wrap64`.
* A run-time panic of the Go program (index out of range, `make` with a
  negative size, `make([]rune, n)` beyond the limit `maxAlloc` of the runtime)
  is the `Except.error` branch of `Go α`.  Allocation is otherwise assumed to
  succeed: what the machine can allocate, and the growth of the capacity hints
  by `append`, are not modelled.
* The `for` loop of `findVendorIdInRange` has no variant in the source, so it
  is run with an explicit number of iterations (`fuel`); `none` means that the
  loop has not returned within that many iterations.
* `time.Time` is modelled by the Unix second it denotes.
-/

set_option maxRecDepth 100000

namespace Consent

/-! ## Go run-time model -/

/-- Run-time failures that the code of the package can raise: the panics of
slice indexing and of `make`, and the exhaustion of memory by an `append` loop
that has no exit. -/
inductive Panic where
  | indexOutOfRange
  | makesliceLenOutOfRange
  | makesliceCapOutOfRange
  | outOfMemory
  deriving DecidableEq, Repr

/-- A Go computation: a value, or a run-time panic. -/
abbrev Go (α : Type) := Except Panic α

/-- Reduce an integer to the range of a signed 64-bit `int`. -/
def wrap64 (x : Int) : Int := (x + 9223372036854775808) % 18446744073709551616 - 9223372036854775808

/-- Conversion `uint(x)` of a 64-bit `int`. -/
def uint (x : Int) : Nat := (x % 18446744073709551616).toNat

/-- Shift `x << k` on `int` with an unsigned shift count. -/
def shl (x : Int) (k : Nat) : Int := if k < 64 then wrap64 (x * 2 ^ k) else 0

/-- Decrement `k--` of a `uint`. -/
def uintDec (k : Nat) : Nat := (k + 18446744073709551615) % 18446744073709551616

/-- Slice indexing `xs[i]` with an `int` index: panics outside `0 ≤ i < len(xs)`. -/
def goIndex {α : Type} (xs : List α) (i : Int) : Go α :=
  if i < 0 then .error .indexOutOfRange
  else match xs.get? i.toNat with
    | some x => .ok x
    | none => .error .indexOutOfRange

/-! ## Constants -/

def vendorEncodingRange : Int := 1
def versionBitOffset : Int := 0
def versionBitSize : Int := 6
def createdBitOffset : Int := 6
def createdBitSize : Int := 36
def updatedBitOffset : Int := 42
def updatedBitSize : Int := 36
def cmpIDOffset : Int := 78
def cmpIDSize : Int := 12
def cmpVersionOffset : Int := 90
def cmpVersionSize : Int := 12
def consentScreenSizeOffset : Int := 102
def consentScreenSize : Int := 6
def consentLanguageOffset : Int := 108
def consentLanguageSize : Int := 12
def vendorListVersionOffset : Int := 120
def vendorListVersionSize : Int := 12
def purposesOffest : Int := 132
def purposesSize : Int := 24
def maxVendorIDOffset : Int := 156
def maxVendorIDSize : Int := 16
def encodingTypeOffset : Int := 172
def encodingTypeSize : Int := 1
def vendorBitFieldOffset : Int := 173
def defaultConsentOffset : Int := 173
def numEntriesOffset : Int := 174
def numEntriesSize : Int := 12
def rangeEntryOffset : Int := 186
def vendorIDSize : Int := 16

/-! ## `bits` -/

/-- A byte. -/
abbrev Byte := Fin 256

/-- The Go type `bits`. -/
structure bits where
  bytes : List Byte
  deriving DecidableEq, Repr

/-- The method `getBit` of `bits`. -/
def bits.getBit (b : bits) (index : Int) : Go Bool :=
  let byteIndex := Int.tdiv index 8
  let bitOffset := uint (Int.tmod index 8)
  if byteIndex ≥ (b.bytes.length : Int) then .ok false
  else do
    let x ← goIndex b.bytes byteIndex
    pure (decide (x.val &&& (0x80 >>> bitOffset) ≠ 0))

/-- The loop of `getInt`: `n` iterations remain, `i` is the loop counter. -/
def bits.getIntLoop (b : bits) (startInclusive : Int) : Nat → Int → Nat → Int → Go Int
  | 0, _, _, val => .ok val
  | n + 1, i, sigIndex, val => do
    let bit ← b.getBit (wrap64 (startInclusive + i))
    let val := if bit then wrap64 (val + shl 1 sigIndex) else val
    bits.getIntLoop b startInclusive n (i + 1) (uintDec sigIndex) val

/-- The method `getInt` of `bits`. -/
def bits.getInt (b : bits) (startInclusive size : Int) : Go Int :=
  bits.getIntLoop b startInclusive size.toNat 0 (uintDec (uint size)) 0

/-- The loop of `getSixBitString`: `n` characters remain, `i` is the loop
counter.  The source fills a preallocated slice at index `i`; here the
characters are appended in the same order. -/
def bits.getSixBitStringLoop (b : bits) (startInclusive : Int) : Nat → Int → List Char → Go (List Char)
  | 0, _, str => .ok str
  | n + 1, i, str => do
    let v ← b.getInt (wrap64 (startInclusive + wrap64 (i * 6))) 6
    let charCode := wrap64 (v + 65)
    bits.getSixBitStringLoop b startInclusive n (i + 1) (str ++ [Char.ofNat charCode.toNat])

/-- The largest size in bytes that `make` accepts for a slice: `1 << 48` in the
64-bit runtime (no platform has a larger one).  Whether an allocation below
this limit succeeds depends on the machine and is not modelled. -/
def maxAlloc : Int := 281474976710656

/-- The method `getSixBitString` of `bits`.  `make([]rune, charNum)` panics
for a negative length and for a length whose `charNum` four-byte runes exceed
`maxAlloc`. -/
def bits.getSixBitString (b : bits) (startInclusive size : Int) : Go String :=
  if Int.tmod size 6 ≠ 0 then .ok ""
  else
    let charNum := Int.tdiv size 6
    if charNum < 0 ∨ 4 * charNum > maxAlloc then .error .makesliceLenOutOfRange
    else do
      let str ← bits.getSixBitStringLoop b startInclusive charNum.toNat 0 []
      pure (String.mk str)

/-! ## `RangeEntry` -/

/-- The Go type `RangeEntry`. -/
structure RangeEntry where
  vendorIds : List Int
  maxVendorId : Int
  minVendorId : Int
  deriving DecidableEq, Repr

/-- The constructor `NewRangeEntry`. -/
def NewRangeEntry (vendorId : Int) : RangeEntry :=
  { vendorIds := [vendorId], maxVendorId := vendorId, minVendorId := vendorId }

/-- The `for ; startId <= endId; startId++` loop of `NewRangeEntryWithRange`,
with `n` iterations remaining. -/
def appendRange : Nat → Int → List Int → List Int
  | 0, _, ids => ids
  | n + 1, startId, ids => appendRange n (wrap64 (startId + 1)) (ids ++ [startId])

/-- The constructor `NewRangeEntryWithRange`.  `make` panics when the capacity
`endId - startId` is negative.  When `endId` is the largest `int` the loop
condition `startId <= endId` never fails (`startId++` wraps around) and the
loop appends until memory is exhausted.  Otherwise the loop runs once for
every id in `[startId, endId]`.  The memory limit of `make` is not modelled. -/
def NewRangeEntryWithRange (startId endId : Int) : Go RangeEntry :=
  if wrap64 (endId - startId) < 0 then .error .makesliceCapOutOfRange
  else if endId = 9223372036854775807 then .error .outOfMemory
  else .ok
    { vendorIds := appendRange (endId - startId + 1).toNat startId []
      minVendorId := startId
      maxVendorId := endId }

/-- The method `containsVendorId` of `RangeEntry`. -/
def RangeEntry.containsVendorId (r : RangeEntry) (vendorId : Int) : Bool :=
  r.vendorIds.any fun v => decide (v = vendorId)

/-- The method `idIsGreaterThanMax` of `RangeEntry`. -/
def RangeEntry.idIsGreaterThanMax (r : RangeEntry) (vendorId : Int) : Bool :=
  decide (vendorId > r.maxVendorId)

/-! ## `base64.RawURLEncoding.DecodeString` -/

/-- The error `base64.CorruptInputError` (its offset is not modelled). -/
inductive CorruptInputError where
  | corruptInput
  deriving DecidableEq, Repr

/-- The URL-safe base64 alphabet. -/
def encodeURL : List Char :=
  "ABCDEFGHIJKLMNOPQRSTUVWXYZabcdefghijklmnopqrstuvwxyz0123456789-_".data

/-- The six-bit value of a character of the alphabet, `none` for any other
character (the entry `0xff` of the decode map). -/
def decodeMap (c : Char) : Option Nat :=
  let i := encodeURL.indexOf c
  if i < encodeURL.length then some i else none

/-- The byte `byte(v)`. -/
def toByte (v : Nat) : Byte := ⟨v % 256, Nat.mod_lt _ (by decide)⟩

/-- The decoder of `base64.RawURLEncoding` (no padding, not strict): `\r` and
`\n` are skipped, any other character outside the alphabet is corrupt input,
four characters give three bytes, a final group of two or three characters
gives one or two bytes and a final group of one character is corrupt input.
`pend` holds the six-bit values of the current group, `out` the bytes so far. -/
def decodeQuanta : List Char → List Nat → List Byte → Except CorruptInputError (List Byte)
  | [], pend, out =>
    match pend with
    | [] => .ok out
    | [a, b] => .ok (out ++ [toByte ((a <<< 18 ||| b <<< 12) >>> 16)])
    | [a, b, c] =>
      let val := a <<< 18 ||| b <<< 12 ||| c <<< 6
      .ok (out ++ [toByte (val >>> 16), toByte (val >>> 8)])
    | _ => .error .corruptInput
  | ch :: rest, pend, out =>
    match decodeMap ch with
    | some d =>
      match pend with
      | [a, b, c] =>
        let val := a <<< 18 ||| b <<< 12 ||| c <<< 6 ||| d
        decodeQuanta rest [] (out ++ [toByte (val >>> 16), toByte (val >>> 8), toByte val])
      | _ => decodeQuanta rest (pend ++ [d]) out
    | none =>
      if ch = '\n' ∨ ch = '\r' then decodeQuanta rest pend out
      else .error .corruptInput

/-- The call `base64.RawURLEncoding.DecodeString(c)`.  The input is read
character by character: a character outside ASCII stands for UTF-8 bytes from
`0x80` up, none of which is in the alphabet or a line break, so it is corrupt
input in the source as well. -/
def DecodeString (c : String) : Except CorruptInputError (List Byte) :=
  decodeQuanta c.data [] []

/-! ## `UserConsent` -/

/-- A `time.Time`, as the Unix second it denotes. -/
structure Time where
  sec : Int
  deriving DecidableEq, Repr

/-- The call `time.Unix(sec, 0)`. -/
def Time.Unix (sec : Int) : Time := ⟨sec⟩

/-- The zero `time.Time`: January 1, year 1, 00:00:00 UTC. -/
def Time.zero : Time := ⟨-62135596800⟩

/-- The Go type `UserConsent`. -/
structure UserConsent where
  ConsentString : String
  Version : Int
  CmpID : Int
  CmpVersion : Int
  ConsentScreenID : Int
  ConsentRecordCreated : Time
  ConsentRecordLastUpdated : Time
  ConsentLanguage : String
  VendorListVersion : Int
  bits : bits
  purposes : List Bool
  vendorEncodingType : Int
  rangeEntries : List RangeEntry
  defaultConsent : Bool
  maxVendorSize : Int
  deriving DecidableEq, Repr

/-- The zero value `UserConsent{}`. -/
def UserConsent.zero : UserConsent :=
  { ConsentString := ""
    Version := 0
    CmpID := 0
    CmpVersion := 0
    ConsentScreenID := 0
    ConsentRecordCreated := Time.zero
    ConsentRecordLastUpdated := Time.zero
    ConsentLanguage := ""
    VendorListVersion := 0
    bits := ⟨[]⟩
    purposes := []
    vendorEncodingType := 0
    rangeEntries := []
    defaultConsent := false
    maxVendorSize := 0 }

/-- The purposes loop of `NewUserConsent`: `n` iterations remain. -/
def purposesLoop (b : bits) : Nat → Int → List Bool → Go (List Bool)
  | 0, _, purposes => .ok purposes
  | n + 1, i, purposes => do
    let bit ← b.getBit i
    purposesLoop b n (i + 1) (purposes ++ [bit])

/-- The range-entry loop of `NewUserConsent`: `n` iterations remain. -/
def rangeEntriesLoop (b : bits) : Nat → Int → List RangeEntry → Go (List RangeEntry)
  | 0, _, entries => .ok entries
  | n + 1, currentOffset, entries => do
    let rng ← b.getBit currentOffset
    let currentOffset := currentOffset + 1
    if rng then
      let startVendorId ← b.getInt currentOffset vendorIDSize
      let currentOffset := currentOffset + vendorIDSize
      let endVendorId ← b.getInt currentOffset vendorIDSize
      let currentOffset := currentOffset + vendorIDSize
      let e ← NewRangeEntryWithRange startVendorId endVendorId
      rangeEntriesLoop b n currentOffset (entries ++ [e])
    else
      let vendorId ← b.getInt currentOffset vendorIDSize
      let currentOffset := currentOffset + vendorIDSize
      rangeEntriesLoop b n currentOffset (entries ++ [NewRangeEntry vendorId])

/-- The part of `NewUserConsent` after the base64 step. -/
def buildUserConsent (c : String) (res : List Byte) : Go UserConsent := do
  let b : bits := ⟨res⟩
  let version ← b.getInt versionBitOffset versionBitSize
  let cmpID ← b.getInt cmpIDOffset cmpIDSize
  let cmpVersion ← b.getInt cmpVersionOffset cmpVersionSize
  let consentScreenID ← b.getInt consentScreenSizeOffset consentScreenSize
  let consentLanguage ← b.getSixBitString consentLanguageOffset consentLanguageSize
  let vendorListVersion ← b.getInt vendorListVersionOffset vendorListVersionSize
  let maxVendorSize ← b.getInt maxVendorIDOffset maxVendorIDSize
  let vendorEncodingType ← b.getInt encodingTypeOffset encodingTypeSize
  let created ← b.getInt createdBitOffset createdBitSize
  let updated ← b.getInt updatedBitOffset updatedBitSize
  let purposes ← purposesLoop b purposesSize.toNat purposesOffest []
  let uc : UserConsent :=
    { ConsentString := c
      Version := version
      CmpID := cmpID
      CmpVersion := cmpVersion
      ConsentScreenID := consentScreenID
      ConsentRecordCreated := Time.Unix (Int.tdiv created 10)
      ConsentRecordLastUpdated := Time.Unix (Int.tdiv updated 10)
      ConsentLanguage := consentLanguage
      VendorListVersion := vendorListVersion
      bits := b
      purposes := purposes
      vendorEncodingType := vendorEncodingType
      rangeEntries := []
      defaultConsent := false
      maxVendorSize := maxVendorSize }
  if vendorEncodingType = vendorEncodingRange then
    let defaultConsent ← b.getBit defaultConsentOffset
    let numEntries ← b.getInt numEntriesOffset numEntriesSize
    if numEntries < 0 then .error .makesliceCapOutOfRange
    else do
      let rangeEntries ← rangeEntriesLoop b numEntries.toNat rangeEntryOffset []
      pure { uc with defaultConsent := defaultConsent, rangeEntries := rangeEntries }
  else
    pure uc

/-- The function `NewUserConsent`: the record and the error it returns, or a
run-time panic. -/
def NewUserConsent (c : String) : Go (UserConsent × Option CorruptInputError) :=
  match DecodeString c with
  | .error err => .ok (UserConsent.zero, some err)
  | .ok res => do
    let uc ← buildUserConsent c res
    pure (uc, none)

/-! ## Queries -/

/-- The method `IsPurposeAllowed`. -/
def UserConsent.IsPurposeAllowed (uc : UserConsent) (purposeId : Int) : Go Bool :=
  if purposeId < 1 ∨ purposeId > (uc.purposes.length : Int) then .ok false
  else goIndex uc.purposes (purposeId - 1)

/-- The method `ArePurposesAllowed`. -/
def UserConsent.ArePurposesAllowed (uc : UserConsent) : List Int → Go Bool
  | [] => .ok true
  | p :: rest =>
    if p < 1 ∨ p > (uc.purposes.length : Int) then .ok false
    else do
      let allowed ← goIndex uc.purposes (p - 1)
      if !allowed then pure false
      else UserConsent.ArePurposesAllowed uc rest

/-- What one iteration of the loop of `findVendorIdInRange` does. -/
inductive Probe where
  | ret (present : Bool)
  | next (index : Int)
  deriving DecidableEq, Repr

/-- One evaluation of the loop condition and body of `findVendorIdInRange` at
`index`. -/
def probe (entries : List RangeEntry) (vendorId index : Int) : Go Probe :=
  let limit : Int := entries.length
  if index ≥ 0 ∧ index < limit then do
    let entry ← goIndex entries index
    if entry.containsVendorId vendorId then pure (.ret true)
    else if index = 0 ∨ index = limit - 1 then pure (.ret false)
    else if entry.idIsGreaterThanMax vendorId then
      pure (.next (index + Int.tdiv (limit - index) 2))
    else pure (.next (Int.tdiv index 2))
  else pure (.ret false)

/-- The loop of `findVendorIdInRange`, run for at most `fuel` iterations. -/
def findLoop (entries : List RangeEntry) (vendorId : Int) : Nat → Int → Option (Go Bool)
  | 0, _ => none
  | fuel + 1, index =>
    match probe entries vendorId index with
    | .error p => some (.error p)
    | .ok (.ret present) => some (.ok present)
    | .ok (.next index) => findLoop entries vendorId fuel index

/-- The method `findVendorIdInRange`, its loop run for at most `fuel`
iterations. -/
def UserConsent.findVendorIdInRange (uc : UserConsent) (fuel : Nat) (vendorId : Int) :
    Option (Go Bool) :=
  let limit : Int := uc.rangeEntries.length
  if limit = 0 then some (.ok false)
  else findLoop uc.rangeEntries vendorId fuel (Int.tdiv limit 2)

/-- The method `IsVendorAllowed`, with `fuel` iterations for the range search. -/
def UserConsent.IsVendorAllowed (uc : UserConsent) (fuel : Nat) (vendorId : Int) :
    Option (Go Bool) :=
  if uc.vendorEncodingType = vendorEncodingRange then
    match uc.findVendorIdInRange fuel vendorId with
    | none => none
    | some (.error p) => some (.error p)
    | some (.ok present) => some (.ok (present != uc.defaultConsent))
  else
    some (uc.bits.getBit (wrap64 (wrap64 (vendorBitFieldOffset + vendorId) - 1)))

/-! ## Query methods with their receiver

The query methods have the receiver `uc *UserConsent`.  Below, a call is a
function from the record before the call to its outcome: `none` when the call
has not returned within the given number of loop iterations, a panic, or the
result together with the record after the call.  Every read of a field of the
receiver is a `Method.read`; the source has no assignment to the receiver. -/

/-- A call of a method with receiver `*UserConsent`. -/
def Method (α : Type) : Type := UserConsent → Option (Go (α × UserConsent))

/-- Return a value, leaving the receiver as it is. -/
def Method.ret {α : Type} (a : α) : Method α := fun uc => some (.ok (a, uc))

/-- Sequence two steps: the second runs on the record left by the first. -/
def Method.andThen {α β : Type} (m : Method α) (f : α → Method β) : Method β := fun uc =>
  match m uc with
  | none => none
  | some (.error p) => some (.error p)
  | some (.ok (a, uc1)) => f a uc1

instance : Monad Method where
  pure := Method.ret
  bind := Method.andThen

/-- Read the receiver `*uc`. -/
def Method.read : Method UserConsent := fun uc => some (.ok (uc, uc))

/-- Evaluate an expression that can panic and does not have the receiver. -/
def Method.eval {α : Type} (g : Go α) : Method α := fun uc =>
  match g with
  | .ok a => some (.ok (a, uc))
  | .error p => some (.error p)

/-- The loop has used up its iterations. -/
def Method.outOfFuel {α : Type} : Method α := fun _ => none

/-- The method `IsPurposeAllowed`, with its receiver. -/
def IsPurposeAllowedM (purposeId : Int) : Method Bool := do
  let uc ← Method.read
  if purposeId < 1 ∨ purposeId > (uc.purposes.length : Int) then pure false
  else do
    let uc ← Method.read
    Method.eval (goIndex uc.purposes (purposeId - 1))

/-- The method `ArePurposesAllowed`, with its receiver. -/
def ArePurposesAllowedM : List Int → Method Bool
  | [] => pure true
  | p :: rest => do
    let uc ← Method.read
    if p < 1 ∨ p > (uc.purposes.length : Int) then pure false
    else do
      let uc ← Method.read
      let allowed ← Method.eval (goIndex uc.purposes (p - 1))
      if !allowed then pure false
      else ArePurposesAllowedM rest

/-- The loop of `findVendorIdInRange`, with its receiver, run for at most
`fuel` iterations; `limit` and `index` are the local variables. -/
def findLoopM (vendorId limit : Int) : Nat → Int → Method Bool
  | 0, _ => Method.outOfFuel
  | fuel + 1, index =>
    if index ≥ 0 ∧ index < limit then do
      let uc ← Method.read
      let entry ← Method.eval (goIndex uc.rangeEntries index)
      if entry.containsVendorId vendorId then pure true
      else if index = 0 ∨ index = limit - 1 then pure false
      else if entry.idIsGreaterThanMax vendorId then
        findLoopM vendorId limit fuel (index + Int.tdiv (limit - index) 2)
      else findLoopM vendorId limit fuel (Int.tdiv index 2)
    else pure false

/-- The method `findVendorIdInRange`, with its receiver. -/
def findVendorIdInRangeM (fuel : Nat) (vendorId : Int) : Method Bool := do
  let uc ← Method.read
  let limit : Int := uc.rangeEntries.length
  if limit = 0 then pure false
  else findLoopM vendorId limit fuel (Int.tdiv limit 2)

/-- The method `IsVendorAllowed`, with its receiver. -/
def IsVendorAllowedM (fuel : Nat) (vendorId : Int) : Method Bool := do
  let uc ← Method.read
  if uc.vendorEncodingType = vendorEncodingRange then do
    let present ← findVendorIdInRangeM fuel vendorId
    let uc ← Method.read
    pure (present != uc.defaultConsent)
  else do
    let uc ← Method.read
    Method.eval (uc.bits.getBit (wrap64 (wrap64 (vendorBitFieldOffset + vendorId) - 1)))

/-- The outcome `o` of a call, together with the record `uc` left unchanged. -/
def unchanged {α : Type} (uc : UserConsent) (o : Option (Go α)) :
    Option (Go (α × UserConsent)) :=
  o.map (Except.map fun r => (r, uc))

/-! ## Test vectors of `consent_test.go` -/

def token1 : String := "BN5lERiOMYEdiAOAWeFRAAYAAaAAptQ"
def token2 : String := "BN5lERiOMYEdiAKAWXEND1HoSBE6CAFAApAMgBkIDIgM0AgOJxAnQA"
def token3 : String := "BON2bQyON2bQyABABAPLATAAAAAAAA"

/-- The bytes that `token1` decodes to. -/
def token1Bytes : List Byte :=
  [4, 222, 101, 17, 24, 142, 49, 129, 29, 136, 3, 128, 89, 225, 81, 0, 6, 0, 1, 160, 0, 166, 212]

/-- The record that `NewUserConsent` returns for `token1`. -/
def record1 : UserConsent :=
  { ConsentString := token1
    Version := 1
    CmpID := 14
    CmpVersion := 22
    ConsentScreenID := 30
    ConsentRecordCreated := Time.Unix 1492466185
    ConsentRecordLastUpdated := Time.Unix 1524002185
    ConsentLanguage := "FR"
    VendorListVersion := 0
    bits := ⟨token1Bytes⟩
    purposes := [false, true, true, false, false, false, false, false, false, false, false, false,
      false, false, false, false, false, false, false, true, true, false, true, false]
    vendorEncodingType := 0
    rangeEntries := []
    defaultConsent := false
    maxVendorSize := 10 }

/-- The bytes that `token2` decodes to. -/
def token2Bytes : List Byte :=
  [4, 222, 101, 17, 24, 142, 49, 129, 29, 136, 2, 128, 89, 113, 13, 15, 81, 232, 72, 17, 58, 8, 1,
    64, 2, 144, 12, 128, 25, 8, 12, 136, 12, 208, 8, 14, 39, 16, 39, 64]

/-- The range entries of `token2`: 20, 200-400, 401-410, 515, 5000-5024. -/
def token2Entries : List RangeEntry :=
  [ NewRangeEntry 20,
    { vendorIds := appendRange 201 200 [], maxVendorId := 400, minVendorId := 200 },
    { vendorIds := appendRange 10 401 [], maxVendorId := 410, minVendorId := 401 },
    NewRangeEntry 515,
    { vendorIds := appendRange 25 5000 [], maxVendorId := 5024, minVendorId := 5000 } ]

/-- The record that `NewUserConsent` returns for `token2`. -/
def record2 : UserConsent :=
  { ConsentString := token2
    Version := 1
    CmpID := 10
    CmpVersion := 22
    ConsentScreenID := 23
    ConsentRecordCreated := Time.Unix 1492466185
    ConsentRecordLastUpdated := Time.Unix 1524002185
    ConsentLanguage := "EN"
    VendorListVersion := 245
    bits := ⟨token2Bytes⟩
    purposes := [false, false, false, true, true, true, true, false, true, false, false, false,
      false, true, false, false, true, false, false, false, false, false, false, true]
    vendorEncodingType := 1
    rangeEntries := token2Entries
    defaultConsent := false
    maxVendorSize := 5024 }

/-- The bytes that `token3` decodes to. -/
def token3Bytes : List Byte :=
  [4, 227, 118, 109, 12, 142, 55, 102, 208, 200, 0, 64, 4, 3, 203, 1, 48, 0, 0, 0, 0, 0]

/-- The record that `NewUserConsent` returns for `token3`. -/
def record3 : UserConsent :=
  { ConsentString := token3
    Version := 1
    CmpID := 1
    CmpVersion := 1
    ConsentScreenID := 0
    ConsentRecordCreated := Time.Unix 1526475678
    ConsentRecordLastUpdated := Time.Unix 1526475678
    ConsentLanguage := "PL"
    VendorListVersion := 19
    bits := ⟨token3Bytes⟩
    purposes := List.replicate 24 false
    vendorEncodingType := 0
    rangeEntries := []
    defaultConsent := false
    maxVendorSize := 0 }

/-! ## Further inputs

Each token below carries the first 156 bits of `token2` (header and purposes),
followed by the vendor section described. -/

/-- RANGE record, `maxVendorId` 20, `defaultConsent` 0, two single-vendor
entries 10 and 20. -/
def tokenTwoEntries : String := "BN5lERiOMYEdiAKAWXEND1HoSBABSACAAUABQA"

/-- The bytes that `tokenTwoEntries` decodes to. -/
def tokenTwoEntriesBytes : List Byte :=
  [4, 222, 101, 17, 24, 142, 49, 129, 29, 136, 2, 128, 89, 113, 13, 15, 81, 232, 72, 16, 1, 72, 0,
    128, 1, 64, 1, 64]

/-- The record that `NewUserConsent` returns for `tokenTwoEntries`. -/
def recordTwoEntries : UserConsent :=
  { record2 with
    ConsentString := tokenTwoEntries
    bits := ⟨tokenTwoEntriesBytes⟩
    rangeEntries := [NewRangeEntry 10, NewRangeEntry 20]
    maxVendorSize := 20 }

/-- RANGE record, `maxVendorId` 2, `defaultConsent` 0, one range entry with
start 2 and end 1. -/
def tokenReversedRange : String := "BN5lERiOMYEdiAKAWXEND1HoSBAAKABgAEAAIA"

/-- The bytes that `tokenReversedRange` decodes to. -/
def tokenReversedRangeBytes : List Byte :=
  [4, 222, 101, 17, 24, 142, 49, 129, 29, 136, 2, 128, 89, 113, 13, 15, 81, 232, 72, 16, 0, 40, 0,
    96, 0, 64, 0, 32]

/-- The token `token1` followed by a line feed. -/
def token1Newline : String := "BN5lERiOMYEdiAOAWeFRAAYAAaAAptQ\n"

/-- The token `token1` followed by the padding character. -/
def token1Padded : String := "BN5lERiOMYEdiAOAWeFRAAYAAaAAptQ="

/-- BITFIELD record: `token1` with the `maxVendorId` field set to 3. -/
def tokenMaxThree : String := "BN5lERiOMYEdiAOAWeFRAAYAAaAANtQ"

/-- The bytes that `tokenMaxThree` decodes to. -/
def tokenMaxThreeBytes : List Byte :=
  [4, 222, 101, 17, 24, 142, 49, 129, 29, 136, 3, 128, 89, 225, 81, 0, 6, 0, 1, 160, 0, 54, 212]

/-- The record that `NewUserConsent` returns for `tokenMaxThree`. -/
def recordMaxThree : UserConsent :=
  { record1 with
    ConsentString := tokenMaxThree
    bits := ⟨tokenMaxThreeBytes⟩
    maxVendorSize := 3 }

/-- RANGE record, `maxVendorId` 20, `defaultConsent` 1, no range entry. -/
def tokenDefaultTrue : String := "BN5lERiOMYEdiAKAWXEND1HoSBABTAAA"

/-- The bytes that `tokenDefaultTrue` decodes to. -/
def tokenDefaultTrueBytes : List Byte :=
  [4, 222, 101, 17, 24, 142, 49, 129, 29, 136, 2, 128, 89, 113, 13, 15, 81, 232, 72, 16, 1, 76, 0, 0]

/-- The record that `NewUserConsent` returns for `tokenDefaultTrue`. -/
def recordDefaultTrue : UserConsent :=
  { record2 with
    ConsentString := tokenDefaultTrue
    bits := ⟨tokenDefaultTrueBytes⟩
    rangeEntries := []
    defaultConsent := true
    maxVendorSize := 20 }

/-- RANGE record, `maxVendorId` 9, `defaultConsent` 0, one single-vendor entry
with id 9; 26 bytes, the last byte holds the three lowest bits of the id. -/
def tokenEntryNine : String := "BN5lERiOMYEdiAKAWXEND1HoSBAAmABAASA"

/-- The bytes that `tokenEntryNine` decodes to. -/
def tokenEntryNineBytes : List Byte :=
  [4, 222, 101, 17, 24, 142, 49, 129, 29, 136, 2, 128, 89, 113, 13, 15, 81, 232, 72, 16, 0, 152, 0,
    64, 1, 32]

/-- The record that `NewUserConsent` returns for `tokenEntryNine`. -/
def recordEntryNine : UserConsent :=
  { record2 with
    ConsentString := tokenEntryNine
    bits := ⟨tokenEntryNineBytes⟩
    rangeEntries := [NewRangeEntry 9]
    maxVendorSize := 9 }

/-- The first 25 bytes of `tokenEntryNineBytes`, encoded. -/
def tokenEntryNineCut : String := "BN5lERiOMYEdiAKAWXEND1HoSBAAmABAAQ"

/-- The bytes that `tokenEntryNineCut` decodes to. -/
def tokenEntryNineCutBytes : List Byte :=
  [4, 222, 101, 17, 24, 142, 49, 129, 29, 136, 2, 128, 89, 113, 13, 15, 81, 232, 72, 16, 0, 152, 0,
    64, 1]

/-- The record that `NewUserConsent` returns for `tokenEntryNineCut`. -/
def recordEntryNineCut : UserConsent :=
  { record2 with
    ConsentString := tokenEntryNineCut
    bits := ⟨tokenEntryNineCutBytes⟩
    rangeEntries := [NewRangeEntry 8]
    maxVendorSize := 9 }

/-- The first 22 bytes of `token1Bytes`, encoded. -/
def token1Cut : String := "BN5lERiOMYEdiAOAWeFRAAYAAaAApg"

/-- The bytes that `token1Cut` decodes to. -/
def token1CutBytes : List Byte :=
  [4, 222, 101, 17, 24, 142, 49, 129, 29, 136, 3, 128, 89, 225, 81, 0, 6, 0, 1, 160, 0, 166]

/-- The record that `NewUserConsent` returns for `token1Cut`. -/
def record1Cut : UserConsent :=
  { record1 with ConsentString := token1Cut, bits := ⟨token1CutBytes⟩ }

/-! ## Specification-level reading of a byte sequence -/

/-- Bit number `i` of the byte sequence `B`, the most significant bit of each
byte first; `false` at and beyond `8 * B.length`. -/
def bitAt (B : List Byte) (i : Nat) : Bool :=
  match B.get? (i / 8) with
  | some x => x.val.testBit (7 - i % 8)
  | none => false

/-- The unsigned integer whose binary digits, most significant first, are the
bits `[a, a + w)` of `B`. -/
def bitsValue (B : List Byte) (a w : Nat) : Nat :=
  ((List.range w).map fun i => (bitAt B (a + i)).toNat * 2 ^ (w - 1 - i)).sum

/-- Every id of the entry, and its maximum, is a 16-bit value. -/
def RangeEntry.Within16 (e : RangeEntry) : Prop :=
  (∀ id ∈ e.vendorIds, 0 ≤ id ∧ id < 65536) ∧ 0 ≤ e.maxVendorId ∧ e.maxVendorId < 65536

/-- The width in bits of the range entry at offset `o`: 33 when its flag bit is
set (a range), 17 otherwise (a single id). -/
def entryWidth (B : List Byte) (o : Nat) : Nat := if bitAt B o then 33 else 17

/-- The offset of the `k`-th entry of a list of range entries that starts at
offset `o`. -/
def entryOffsetFrom (B : List Byte) : Nat → Nat → Nat
  | o, 0 => o
  | o, k + 1 => entryOffsetFrom B (o + entryWidth B o) k

/-- The offset of the `k`-th range entry of the record. -/
def entryOffset (B : List Byte) (k : Nat) : Nat := entryOffsetFrom B 186 k

/-- The entry `e` is the one encoded at offset `o`: a range with the 16-bit
start and end after a set flag bit, a single 16-bit id after a clear one. -/
def EntryAt (B : List Byte) (o : Nat) (e : RangeEntry) : Prop :=
  if bitAt B o then
    NewRangeEntryWithRange (bitsValue B (o + 1) 16) (bitsValue B (o + 17) 16) = .ok e
  else e = NewRangeEntry (bitsValue B (o + 1) 16)

/-- The record that the header of the byte sequence `B` denotes, with the
vendor section left unpopulated. -/
def headerRecord (c : String) (B : List Byte) : UserConsent :=
  { ConsentString := c
    Version := bitsValue B 0 6
    CmpID := bitsValue B 78 12
    CmpVersion := bitsValue B 90 12
    ConsentScreenID := bitsValue B 102 6
    ConsentRecordCreated := Time.Unix ((bitsValue B 6 36 / 10 : Nat) : Int)
    ConsentRecordLastUpdated := Time.Unix ((bitsValue B 42 36 / 10 : Nat) : Int)
    ConsentLanguage :=
      String.mk [Char.ofNat (bitsValue B 108 6 + 65), Char.ofNat (bitsValue B 114 6 + 65)]
    VendorListVersion := bitsValue B 120 12
    bits := ⟨B⟩
    purposes := (List.range 24).map fun k => bitAt B (132 + k)
    vendorEncodingType := bitsValue B 172 1
    rangeEntries := []
    defaultConsent := false
    maxVendorSize := bitsValue B 156 16 }

/-! ## Lemmas on the run-time model -/

theorem wrap64_of_range {x : Int} (h1 : -9223372036854775808 ≤ x)
    (h2 : x < 9223372036854775808) : wrap64 x = x := by
  unfold wrap64
  omega

theorem uint_of_range {x : Int} (h1 : 0 ≤ x) (h2 : x < 18446744073709551616) :
    uint x = x.toNat := by
  unfold uint
  rw [Int.emod_eq_of_lt h1 h2]

theorem goIndex_natCast {α : Type} (xs : List α) (i : Nat) :
    goIndex xs (i : Int) = match xs.get? i with
      | some x => .ok x
      | none => .error .indexOutOfRange := by
  unfold goIndex
  simp

theorem mask_testBit : ∀ (x : Fin 256) (k : Fin 8),
    decide (x.val &&& (0x80 >>> k.val) ≠ 0) = x.val.testBit (7 - k.val) := by
  decide

/-! ## Lemmas on `bits` -/

/-- At a non-negative index `getBit` does not panic and reads `bitAt`. -/
theorem getBit_natCast (b : bits) (i : Nat) : b.getBit (i : Int) = .ok (bitAt b.bytes i) := by
  have hd : Int.tdiv (i : Int) 8 = ((i / 8 : Nat) : Int) := by
    rw [Int.tdiv_eq_ediv (by omega) (by omega)]; omega
  have hm : Int.tmod (i : Int) 8 = ((i % 8 : Nat) : Int) := by
    rw [Int.tmod_eq_emod (by omega) (by omega)]; omega
  have hu : uint ((i % 8 : Nat) : Int) = i % 8 := by
    rw [uint_of_range (by omega) (by omega)]; omega
  unfold bits.getBit bitAt
  simp only [hd, hm, hu, goIndex_natCast]
  by_cases hlen : b.bytes.length ≤ i / 8
  · have h1 : ((i / 8 : Nat) : Int) ≥ (b.bytes.length : Int) := by exact_mod_cast hlen
    rw [if_pos h1, List.get?_eq_none.mpr hlen]
  · have h1 : ¬ ((i / 8 : Nat) : Int) ≥ (b.bytes.length : Int) := by
      intro h; exact hlen (by exact_mod_cast h)
    rw [if_neg h1]
    have hlt : i / 8 < b.bytes.length := by omega
    rw [List.get?_eq_get hlt]
    have := mask_testBit (b.bytes.get ⟨i / 8, hlt⟩) ⟨i % 8, Nat.mod_lt _ (by decide)⟩
    simp only [bind, Except.bind, pure, Except.pure]
    simpa using this

theorem getBit_of_nonneg (b : bits) {i : Int} (h : 0 ≤ i) :
    b.getBit i = .ok (bitAt b.bytes i.toNat) := by
  obtain ⟨n, rfl⟩ := Int.eq_ofNat_of_zero_le h
  simpa using getBit_natCast b n

theorem bitAt_of_length_le (B : List Byte) {i : Nat} (h : 8 * B.length ≤ i) :
    bitAt B i = false := by
  unfold bitAt
  rw [List.get?_eq_none.mpr (by omega)]

theorem bitsValue_zero (B : List Byte) (a : Nat) : bitsValue B a 0 = 0 := by
  simp [bitsValue]

theorem bitsValue_succ (B : List Byte) (a w : Nat) :
    bitsValue B a (w + 1) = (bitAt B a).toNat * 2 ^ w + bitsValue B (a + 1) w := by
  unfold bitsValue
  rw [List.range_succ_eq_map]
  simp only [List.map_cons, List.sum_cons, List.map_map]
  congr 1
  congr 1
  apply List.map_congr_left
  intro i _
  have h1 : a + (i + 1) = a + 1 + i := by omega
  have h2 : w + 1 - 1 - (i + 1) = w - 1 - i := by omega
  simp only [Function.comp, Nat.succ_eq_add_one, h1, h2]

theorem bitsValue_lt (B : List Byte) (a w : Nat) : bitsValue B a w < 2 ^ w := by
  induction w generalizing a with
  | zero => simp [bitsValue_zero]
  | succ w ih =>
    rw [bitsValue_succ]
    have h := ih (a + 1)
    have hb : (bitAt B a).toNat ≤ 1 := Bool.toNat_le _
    have : (bitAt B a).toNat * 2 ^ w ≤ 2 ^ w := by
      calc (bitAt B a).toNat * 2 ^ w ≤ 1 * 2 ^ w := Nat.mul_le_mul_right _ hb
        _ = 2 ^ w := by simp
    rw [pow_succ]
    omega

theorem uintDec_succ {n : Nat} (h : n ≤ 63) : uintDec (n + 1) = n := by
  unfold uintDec
  omega

theorem shl_one {n : Nat} (h : n ≤ 62) : shl 1 n = 2 ^ n := by
  have hp : (2 : Int) ^ n ≤ 2 ^ 62 := pow_le_pow_right₀ (by norm_num) h
  have hpos : (0 : Int) < 2 ^ n := by positivity
  unfold shl
  rw [if_pos (by omega), one_mul]
  apply wrap64_of_range
  · omega
  · norm_num at hp; omega

/-- The loop of `getInt` adds to `val` the value of the remaining bits. -/
theorem getIntLoop_eq (b : bits) (start : Nat) :
    ∀ (n i : Nat) (val : Int), n ≤ 63 → start + i + n ≤ 9223372036854775808 → 0 ≤ val →
      val + 2 ^ n ≤ 9223372036854775808 →
      bits.getIntLoop b start n i (uintDec n) val
        = .ok (val + bitsValue b.bytes (start + i) n) := by
  intro n
  induction n with
  | zero =>
    intro i val _ _ _ _
    simp [bits.getIntLoop, bitsValue_zero]
  | succ n ih =>
    intro i val hn hs hv hval
    have hidx : wrap64 ((start : Int) + (i : Int)) = ((start + i : Nat) : Int) := by
      rw [wrap64_of_range (by omega) (by omega)]; push_cast; rfl
    have hpos : (0 : Int) < 2 ^ n := by positivity
    have hpow : (2 : Int) ^ (n + 1) = 2 ^ n * 2 := pow_succ 2 n
    have hnext := ih (i + 1)
    rw [bits.getIntLoop, hidx, getBit_natCast, uintDec_succ (by omega), shl_one (by omega),
      bitsValue_succ]
    simp only [bind, Except.bind]
    cases hbit : bitAt b.bytes (start + i)
    · have := hnext val (by omega) (by omega) hv (by omega)
      simp only [Nat.cast_add, Nat.cast_one] at this
      simp only [Bool.false_eq_true, if_false]
      rw [this]
      simp [Nat.add_assoc]
    · have hw : wrap64 (val + 2 ^ n) = val + 2 ^ n := wrap64_of_range (by omega) (by omega)
      have := hnext (val + 2 ^ n) (by omega) (by omega) (by omega) (by omega)
      simp only [Nat.cast_add, Nat.cast_one] at this
      simp only [if_true, hw]
      rw [this]
      simp [Nat.add_assoc, Int.add_assoc]

/-- For a non-negative start and a width of at most 63 bits, `getInt` does not
panic and returns the value of the bits `[start, start + w)`. -/
theorem getInt_natCast (b : bits) (start w : Nat) (hw : w ≤ 63)
    (hs : start + w ≤ 9223372036854775808) :
    b.getInt (start : Int) (w : Int) = .ok ((bitsValue b.bytes start w : Nat) : Int) := by
  have hsig : uintDec (uint (w : Int)) = uintDec w := by
    unfold uint uintDec
    omega
  have hpow : (2 : Int) ^ w ≤ 2 ^ 63 := pow_le_pow_right₀ (by norm_num) hw
  unfold bits.getInt
  rw [hsig, Int.toNat_ofNat]
  have := getIntLoop_eq b start w 0 0 hw (by omega) (le_refl _) (by norm_num at hpow; omega)
  simpa using this

/-- The purposes loop appends the bits it reads, in order. -/
theorem purposesLoop_eq (b : bits) :
    ∀ (n i : Nat) (acc : List Bool),
      purposesLoop b n (i : Int) acc
        = .ok (acc ++ (List.range n).map fun k => bitAt b.bytes (i + k)) := by
  intro n
  induction n with
  | zero => intro i acc; simp [purposesLoop]
  | succ n ih =>
    intro i acc
    have := ih (i + 1) (acc ++ [bitAt b.bytes i])
    simp only [Nat.cast_add, Nat.cast_one] at this
    rw [purposesLoop, getBit_natCast]
    simp only [bind, Except.bind]
    rw [this, List.range_succ_eq_map]
    simp [Function.comp, Nat.add_assoc, Nat.add_comm 1]

/-- The two letters that `getSixBitString` reads at the language offset. -/
theorem getSixBitString_language (b : bits) :
    b.getSixBitString consentLanguageOffset consentLanguageSize
      = .ok (String.mk [Char.ofNat (bitsValue b.bytes 108 6 + 65),
          Char.ofNat (bitsValue b.bytes 114 6 + 65)]) := by
  have h0 : wrap64 (108 + wrap64 (0 * 6)) = ((108 : Nat) : Int) := by decide
  have h1 : wrap64 (108 + wrap64 ((0 + 1) * 6)) = ((114 : Nat) : Int) := by decide
  have h6 : (6 : Int) = ((6 : Nat) : Int) := rfl
  have hm : Int.tmod 12 6 = 0 := by decide
  have hd : (Int.tdiv 12 6).toNat = 2 := by decide
  have hc : ¬ (Int.tdiv 12 6 < 0 ∨ 4 * Int.tdiv 12 6 > maxAlloc) := by decide
  have hv : ∀ v : Nat, v < 2 ^ 6 → (wrap64 ((v : Int) + 65)).toNat = v + 65 := by
    intro v hv
    rw [wrap64_of_range (by omega) (by norm_num at hv; omega)]
    omega
  unfold bits.getSixBitString
  simp only [consentLanguageOffset, consentLanguageSize, hm, hd, hc, ne_eq, not_true_eq_false,
    if_false, bits.getSixBitStringLoop, h0, h1]
  rw [h6, getInt_natCast b 108 6 (by decide) (by decide),
    getInt_natCast b 114 6 (by decide) (by decide)]
  simp only [bind, Except.bind, pure, Except.pure, hv _ (bitsValue_lt _ _ _), List.nil_append,
    List.singleton_append]

/-- What `NewUserConsent` computes after the base64 step, in terms of the bits
of the decoded bytes. -/
theorem buildUserConsent_eq (c : String) (B : List Byte) :
    buildUserConsent c B =
      if bitsValue B 172 1 = 1 then
        (rangeEntriesLoop ⟨B⟩ (bitsValue B 174 12) rangeEntryOffset []).map fun es =>
          { headerRecord c B with defaultConsent := bitAt B 173, rangeEntries := es }
      else .ok (headerRecord c B) := by
  have g : ∀ (s w : Nat), w ≤ 63 → s + w ≤ 9223372036854775808 →
      bits.getInt ⟨B⟩ (s : Int) (w : Int) = .ok ((bitsValue B s w : Nat) : Int) :=
    fun s w h1 h2 => getInt_natCast ⟨B⟩ s w h1 h2
  have g0 := g 0 6 (by decide) (by decide)
  have g1 := g 78 12 (by decide) (by decide)
  have g2 := g 90 12 (by decide) (by decide)
  have g3 := g 102 6 (by decide) (by decide)
  have g4 := g 120 12 (by decide) (by decide)
  have g5 := g 156 16 (by decide) (by decide)
  have g6 := g 172 1 (by decide) (by decide)
  have g7 := g 6 36 (by decide) (by decide)
  have g8 := g 42 36 (by decide) (by decide)
  obtain ⟨n, hn, g9⟩ : ∃ n : Nat, n = bitsValue B 174 12 ∧
      bits.getInt ⟨B⟩ ((174 : Nat) : Int) ((12 : Nat) : Int) = .ok (n : Int) :=
    ⟨_, rfl, g 174 12 (by decide) (by decide)⟩
  have gl := getSixBitString_language ⟨B⟩
  have gp := purposesLoop_eq ⟨B⟩ 24 132 []
  have gb := getBit_natCast ⟨B⟩ 173
  simp only [Nat.cast_ofNat, Nat.cast_zero, Nat.cast_one] at g0 g1 g2 g3 g4 g5 g6 g7 g8 g9 gp gb
  have hc : (Int.tdiv ((bitsValue B 6 36 : Nat) : Int) 10) = ((bitsValue B 6 36 / 10 : Nat) : Int) :=
    (Int.ofNat_tdiv _ _).symm
  have hu : (Int.tdiv ((bitsValue B 42 36 : Nat) : Int) 10) = ((bitsValue B 42 36 / 10 : Nat) : Int) :=
    (Int.ofNat_tdiv _ _).symm
  have hp : purposesSize.toNat = 24 := by decide
  have hneg : ¬ (n : Int) < 0 := Int.not_lt.mpr (Int.ofNat_nonneg _)
  unfold buildUserConsent
  simp only [versionBitOffset, versionBitSize, cmpIDOffset, cmpIDSize, cmpVersionOffset,
    cmpVersionSize, consentScreenSizeOffset, consentScreenSize, vendorListVersionOffset,
    vendorListVersionSize, maxVendorIDOffset, maxVendorIDSize, encodingTypeOffset,
    encodingTypeSize, createdBitOffset, createdBitSize, updatedBitOffset, updatedBitSize,
    purposesOffest, hp, defaultConsentOffset, numEntriesOffset, numEntriesSize,
    g0, g1, g2, g3, g4, g5, g6, g7, g8, g9, gl, gp, gb, hc, hu, hneg, bind, Except.bind,
    vendorEncodingRange, List.nil_append, Int.toNat_ofNat, if_false]
  subst hn
  by_cases h : bitsValue B 172 1 = 1
  · have h1 : ((bitsValue B 172 1 : Nat) : Int) = 1 := by exact_mod_cast h
    rw [if_pos h, if_pos h1]
    cases rangeEntriesLoop ⟨B⟩ (bitsValue B 174 12) rangeEntryOffset [] with
    | error e => rfl
    | ok es => rfl
  · have h1 : ¬ ((bitsValue B 172 1 : Nat) : Int) = 1 := by
      intro h'; exact h (by exact_mod_cast h')
    rw [if_neg h, if_neg h1]
    rfl

/-- A successful construction, split by the encoding-type bit. -/
theorem constructed_cases {c : String} {B : List Byte} {uc : UserConsent}
    (hB : DecodeString c = .ok B) (h : NewUserConsent c = .ok (uc, none)) :
    (bitsValue B 172 1 ≠ 1 ∧ uc = headerRecord c B) ∨
    (bitsValue B 172 1 = 1 ∧ ∃ es,
      rangeEntriesLoop ⟨B⟩ (bitsValue B 174 12) rangeEntryOffset [] = .ok es ∧
      uc = { headerRecord c B with defaultConsent := bitAt B 173, rangeEntries := es }) := by
  unfold NewUserConsent at h
  rw [hB] at h
  simp only [bind, Except.bind, buildUserConsent_eq] at h
  by_cases h1 : bitsValue B 172 1 = 1
  · right
    refine ⟨h1, ?_⟩
    rw [if_pos h1] at h
    cases hes : rangeEntriesLoop ⟨B⟩ (bitsValue B 174 12) rangeEntryOffset [] with
    | error e => rw [hes] at h; simp [Except.map] at h
    | ok es =>
      rw [hes] at h
      simp only [Except.map, pure, Except.pure, Except.ok.injEq, Prod.mk.injEq, and_true] at h
      exact ⟨es, rfl, h.symm⟩
  · left
    refine ⟨h1, ?_⟩
    rw [if_neg h1] at h
    simp only [pure, Except.pure, Except.ok.injEq, Prod.mk.injEq, and_true] at h
    exact h.symm

theorem bitsValue_one (B : List Byte) (a : Nat) : bitsValue B a 1 = (bitAt B a).toNat := by
  rw [bitsValue_succ, bitsValue_zero]
  simp

/-! ## Header layout -/

/-- C1: for every token that decodes to `B` and for which `NewUserConsent`
returns a record, the header fields are the most-significant-bit-first
integers at the fixed offsets: `Version` = bits [0,6), `CmpID` = bits [78,90),
`CmpVersion` = bits [90,102), `ConsentScreenID` = bits [102,108),
`VendorListVersion` = bits [120,132), the two timestamps are the Unix seconds
bits[6,42) / 10 and bits[42,78) / 10 rounded down, and `ConsentLanguage` is the
two letters `'A' + bits[108,114)` and `'A' + bits[114,120)`. -/
theorem header_layout (c : String) (B : List Byte) (uc : UserConsent)
    (hB : DecodeString c = .ok B) (h : NewUserConsent c = .ok (uc, none)) :
    uc.Version = bitsValue B 0 6 ∧ uc.CmpID = bitsValue B 78 12 ∧
    uc.CmpVersion = bitsValue B 90 12 ∧ uc.ConsentScreenID = bitsValue B 102 6 ∧
    uc.VendorListVersion = bitsValue B 120 12 ∧
    uc.ConsentRecordCreated = Time.Unix ((bitsValue B 6 36 / 10 : Nat) : Int) ∧
    uc.ConsentRecordLastUpdated = Time.Unix ((bitsValue B 42 36 / 10 : Nat) : Int) ∧
    uc.ConsentLanguage
      = String.mk [Char.ofNat (bitsValue B 108 6 + 65), Char.ofNat (bitsValue B 114 6 + 65)] := by
  rcases constructed_cases hB h with ⟨_, rfl⟩ | ⟨_, es, _, rfl⟩ <;>
    exact ⟨rfl, rfl, rfl, rfl, rfl, rfl, rfl, rfl⟩

/-- The header of `token1`: version 1, CMP 14, CMP version 22, language `FR`,
created at Unix second 1492466185, updated at Unix second 1524002185. -/
theorem header_layout_witness :
    DecodeString token1 = .ok token1Bytes ∧ NewUserConsent token1 = .ok (record1, none) ∧
    (record1.Version = bitsValue token1Bytes 0 6 ∧ record1.CmpID = bitsValue token1Bytes 78 12 ∧
      record1.CmpVersion = bitsValue token1Bytes 90 12 ∧
      record1.ConsentScreenID = bitsValue token1Bytes 102 6 ∧
      record1.VendorListVersion = bitsValue token1Bytes 120 12 ∧
      record1.ConsentRecordCreated = Time.Unix ((bitsValue token1Bytes 6 36 / 10 : Nat) : Int) ∧
      record1.ConsentRecordLastUpdated
        = Time.Unix ((bitsValue token1Bytes 42 36 / 10 : Nat) : Int) ∧
      record1.ConsentLanguage
        = String.mk [Char.ofNat (bitsValue token1Bytes 108 6 + 65),
            Char.ofNat (bitsValue token1Bytes 114 6 + 65)]) ∧
    record1.Version = 1 ∧ record1.CmpID = 14 ∧ record1.CmpVersion = 22 ∧
    record1.ConsentLanguage = "FR" ∧ record1.ConsentRecordCreated = Time.Unix 1492466185 ∧
    record1.ConsentRecordLastUpdated = Time.Unix 1524002185 :=
  ⟨rfl, rfl, header_layout token1 token1Bytes record1 rfl rfl, rfl, rfl, rfl, rfl, rfl, rfl⟩

/-! ## BITFIELD vendor query -/

/-- In BITFIELD mode the vendor query is one `getBit` at the wrapped index. -/
theorem IsVendorAllowed_bitfield (uc : UserConsent) (fuel : Nat) (vendorId : Int)
    (h : uc.vendorEncodingType ≠ vendorEncodingRange) :
    uc.IsVendorAllowed fuel vendorId
      = some (uc.bits.getBit (wrap64 (wrap64 (vendorBitFieldOffset + vendorId) - 1))) := by
  unfold UserConsent.IsVendorAllowed
  rw [if_neg h]

/-- A record constructed from bytes whose bit 172 is clear is the header
record, in BITFIELD mode. -/
theorem constructed_bitfield {c : String} {B : List Byte} {uc : UserConsent}
    (hB : DecodeString c = .ok B) (h : NewUserConsent c = .ok (uc, none))
    (henc : bitAt B 172 = false) :
    uc = headerRecord c B ∧ uc.vendorEncodingType ≠ vendorEncodingRange := by
  have h0 : bitsValue B 172 1 = 0 := by rw [bitsValue_one, henc]; rfl
  rcases constructed_cases hB h with ⟨_, rfl⟩ | ⟨h1, _⟩
  · refine ⟨rfl, ?_⟩
    show ((bitsValue B 172 1 : Nat) : Int) ≠ 1
    rw [h0]; decide
  · omega

/-- The BITFIELD query of a constructed record, at an id whose bit index fits
the 64-bit `int`. -/
theorem bitfield_query_eq {c : String} {B : List Byte} {uc : UserConsent}
    (hB : DecodeString c = .ok B) (h : NewUserConsent c = .ok (uc, none))
    (henc : bitAt B 172 = false) (fuel : Nat) {vendorId : Int}
    (h1 : 0 ≤ vendorId) (h2 : vendorId ≤ 9223372036854775635) :
    uc.IsVendorAllowed fuel vendorId = some (.ok (bitAt B (173 + vendorId - 1).toNat)) := by
  obtain ⟨rfl, hmode⟩ := constructed_bitfield hB h henc
  have hidx : wrap64 (wrap64 (vendorBitFieldOffset + vendorId) - 1) = 173 + vendorId - 1 := by
    unfold vendorBitFieldOffset wrap64
    omega
  rw [IsVendorAllowed_bitfield _ _ _ hmode, hidx, getBit_of_nonneg _ (by omega)]
  rfl

/-- C2 (amended): for every record constructed from bytes `B` whose
encoding-type bit 172 is 0 and every `vendorId` with
`1 ≤ vendorId ≤ 2^63 - 173` (so that `173 + vendorId - 1` fits the 64-bit `int`),
`IsVendorAllowed vendorId` returns bit number `173 + vendorId - 1` of `B`, and
returns `false` whenever that index is at least `8 * len(B)`. -/
theorem bitfield_vendor_query (c : String) (B : List Byte) (uc : UserConsent)
    (hB : DecodeString c = .ok B) (h : NewUserConsent c = .ok (uc, none))
    (henc : bitAt B 172 = false) (fuel : Nat) (vendorId : Int)
    (h1 : 1 ≤ vendorId) (h2 : vendorId ≤ 9223372036854775635) :
    uc.IsVendorAllowed fuel vendorId = some (.ok (bitAt B (173 + vendorId - 1).toNat)) ∧
    ((8 * B.length : Int) ≤ 173 + vendorId - 1 →
      uc.IsVendorAllowed fuel vendorId = some (.ok false)) := by
  have hq := bitfield_query_eq hB h henc fuel (by omega : 0 ≤ vendorId) h2
  refine ⟨hq, fun hlen => ?_⟩
  rw [hq, bitAt_of_length_le B (by omega)]

/-- The vendors of `token1`: 1, 5, 7 and 9 are allowed and 10 is denied; the
vendors 1, 2 and 3 of `token3` are denied. -/
theorem bitfield_vendor_query_witness :
    (record1.IsVendorAllowed 0 1 = some (.ok (bitAt token1Bytes (173 + (1 : Int) - 1).toNat)) ∧
      ((8 * token1Bytes.length : Int) ≤ 173 + 1 - 1 →
        record1.IsVendorAllowed 0 1 = some (.ok false))) ∧
    record1.IsVendorAllowed 0 1 = some (.ok true) ∧
    record1.IsVendorAllowed 0 5 = some (.ok true) ∧
    record1.IsVendorAllowed 0 7 = some (.ok true) ∧
    record1.IsVendorAllowed 0 9 = some (.ok true) ∧
    record1.IsVendorAllowed 0 10 = some (.ok false) ∧
    NewUserConsent token3 = .ok (record3, none) ∧
    record3.IsVendorAllowed 0 1 = some (.ok false) ∧
    record3.IsVendorAllowed 0 2 = some (.ok false) ∧
    record3.IsVendorAllowed 0 3 = some (.ok false) :=
  ⟨bitfield_vendor_query token1 token1Bytes record1 rfl rfl rfl 0 1 (by decide) (by decide),
    rfl, rfl, rfl, rfl, rfl, rfl, rfl, rfl, rfl⟩

/-- C2 as stated fails at the largest `int`: `token1` is a BITFIELD record
(bit 172 is 0) and `173 + vendorId - 1` is far beyond its 184 bits, so the
claim gives `false`, but the index overflows to a negative number and
`getBit` panics. -/
theorem bitfield_vendor_query_overflow :
    DecodeString token1 = .ok token1Bytes ∧ NewUserConsent token1 = .ok (record1, none) ∧
    bitAt token1Bytes 172 = false ∧ (1 : Int) ≤ 9223372036854775807 ∧
    (8 * token1Bytes.length : Int) ≤ 173 + 9223372036854775807 - 1 ∧
    record1.IsVendorAllowed 0 9223372036854775807 = some (.error .indexOutOfRange) ∧
    record1.IsVendorAllowed 0 9223372036854775807 ≠ some (.ok false) :=
  ⟨rfl, rfl, rfl, by decide, by decide, rfl, by
    have h : record1.IsVendorAllowed 0 9223372036854775807 = some (.error .indexOutOfRange) := rfl
    rw [h]; simp⟩

/-! ## RANGE vendor query -/

/-- C3, the code at `tokenTwoEntries`: the record is in RANGE mode with
`defaultConsent` false and the sorted, non-overlapping entries 10 and 20.  The
first entry contains vendor 10, but the search starts at index 1, which is
also the last index, and returns "not present": vendor 10 is denied although
it is listed. -/
theorem range_query_misses_listed_vendor :
    DecodeString tokenTwoEntries = .ok tokenTwoEntriesBytes ∧
    NewUserConsent tokenTwoEntries = .ok (recordTwoEntries, none) ∧
    recordTwoEntries.vendorEncodingType = vendorEncodingRange ∧
    recordTwoEntries.defaultConsent = false ∧
    recordTwoEntries.rangeEntries = [NewRangeEntry 10, NewRangeEntry 20] ∧
    (NewRangeEntry 10).containsVendorId 10 = true ∧
    ∀ fuel, recordTwoEntries.IsVendorAllowed (fuel + 1) 10 = some (.ok false) :=
  ⟨rfl, rfl, rfl, rfl, rfl, rfl, fun _ => rfl⟩

/-- On the entries of `token2` and vendor 450 the probes at index 3 and at
index 1 send the search to each other. -/
theorem findLoop_token2_cycle :
    ∀ fuel, findLoop token2Entries 450 fuel 3 = none ∧ findLoop token2Entries 450 fuel 1 = none := by
  have p3 : probe token2Entries 450 3 = .ok (.next 1) := rfl
  have p1 : probe token2Entries 450 1 = .ok (.next 3) := rfl
  intro fuel
  induction fuel with
  | zero => exact ⟨rfl, rfl⟩
  | succ n ih =>
    constructor
    · rw [findLoop, p3]; exact ih.2
    · rw [findLoop, p1]; exact ih.1

/-- C8, the code at `token2` (the RANGE test vector of `consent_test.go`) and
vendor 450: the search probes index 2, then 3, 1, 3, 1, ... and never returns,
whatever number of iterations it is given. -/
theorem range_query_does_not_terminate :
    NewUserConsent token2 = .ok (record2, none) ∧
    ∀ fuel, record2.IsVendorAllowed fuel 450 = none := by
  refine ⟨rfl, fun fuel => ?_⟩
  have p2 : probe token2Entries 450 2 = .ok (.next 3) := rfl
  have hlen : Int.tdiv ((record2.rangeEntries.length : Nat) : Int) 2 = 2 := rfl
  have hne : ¬ ((record2.rangeEntries.length : Nat) : Int) = 0 := by decide
  have hfind : record2.findVendorIdInRange fuel 450 = none := by
    unfold UserConsent.findVendorIdInRange
    simp only [hne, if_false, hlen]
    cases fuel with
    | zero => rfl
    | succ n =>
      show findLoop token2Entries 450 (n + 1) 2 = none
      rw [findLoop, p2]
      exact (findLoop_token2_cycle n).1
  have hmode : record2.vendorEncodingType = vendorEncodingRange := rfl
  unfold UserConsent.IsVendorAllowed
  rw [if_pos hmode, hfind]

/-- C9, the code at `token1` (a BITFIELD record) and vendor -180: the bit index
is `173 - 180 - 1 = -8`, the byte index is -1, and the slice access of `getBit`
panics. -/
theorem vendor_query_panics_on_negative_id :
    NewUserConsent token1 = .ok (record1, none) ∧
    ∀ fuel, record1.IsVendorAllowed fuel (-180) = some (.error .indexOutOfRange) :=
  ⟨rfl, fun _ => rfl⟩

/-! ## Construction failures -/

/-- C6, the code at `tokenReversedRange`: the base64 step accepts the token,
the single range entry has start 2 and end 1, and `make` is called with the
capacity `1 - 2`, which panics. -/
theorem construction_panics_on_reversed_range :
    DecodeString tokenReversedRange = .ok tokenReversedRangeBytes ∧
    NewUserConsent tokenReversedRange = .error .makesliceCapOutOfRange :=
  ⟨rfl, rfl⟩

/-! ## Purpose queries -/

/-- `IsPurposeAllowed` never panics: outside `1..len(purposes)` it is `false`,
inside it is the entry `purposeId - 1`. -/
theorem IsPurposeAllowed_eq (uc : UserConsent) (purposeId : Int) :
    uc.IsPurposeAllowed purposeId
      = .ok (decide (1 ≤ purposeId ∧ purposeId ≤ (uc.purposes.length : Int))
          && uc.purposes.getD (purposeId - 1).toNat false) := by
  unfold UserConsent.IsPurposeAllowed
  by_cases hg : purposeId < 1 ∨ purposeId > (uc.purposes.length : Int)
  · rw [if_pos hg]
    have : ¬ (1 ≤ purposeId ∧ purposeId ≤ (uc.purposes.length : Int)) := by omega
    simp [this]
  · rw [if_neg hg]
    have hin : 1 ≤ purposeId ∧ purposeId ≤ (uc.purposes.length : Int) := by omega
    have hcast : purposeId - 1 = (((purposeId - 1).toNat : Nat) : Int) := by omega
    have hlt : (purposeId - 1).toNat < uc.purposes.length := by omega
    rw [hcast, goIndex_natCast, List.get?_eq_get hlt]
    simp only [Int.toNat_ofNat, hin, and_self, decide_True, Bool.true_and, Except.ok.injEq]
    rw [List.getD_eq_getElem _ _ hlt]
    rfl

/-- `ArePurposesAllowed` never panics and is the conjunction of the single
queries. -/
theorem ArePurposesAllowed_eq (uc : UserConsent) (ids : List Int) :
    uc.ArePurposesAllowed ids
      = .ok (ids.all fun p => decide (1 ≤ p ∧ p ≤ (uc.purposes.length : Int))
          && uc.purposes.getD (p - 1).toNat false) := by
  induction ids with
  | nil => rfl
  | cons p rest ih =>
    unfold UserConsent.ArePurposesAllowed
    by_cases hg : p < 1 ∨ p > (uc.purposes.length : Int)
    · rw [if_pos hg]
      have : ¬ (1 ≤ p ∧ p ≤ (uc.purposes.length : Int)) := by omega
      simp [this]
    · rw [if_neg hg]
      have hin : 1 ≤ p ∧ p ≤ (uc.purposes.length : Int) := by omega
      have hq := IsPurposeAllowed_eq uc p
      unfold UserConsent.IsPurposeAllowed at hq
      rw [if_neg hg] at hq
      rw [hq, ih]
      simp only [hin, and_self, decide_True, Bool.true_and, bind, Except.bind, List.all_cons]
      cases uc.purposes.getD (p - 1).toNat false <;> rfl

/-- The purposes of a constructed record are the 24 bits from offset 132. -/
theorem constructed_purposes {c : String} {B : List Byte} {uc : UserConsent}
    (hB : DecodeString c = .ok B) (h : NewUserConsent c = .ok (uc, none)) :
    uc.purposes = (List.range 24).map fun k => bitAt B (132 + k) := by
  rcases constructed_cases hB h with ⟨_, rfl⟩ | ⟨_, es, _, rfl⟩ <;> rfl

/-- C4: for every record constructed from bytes `B` the purpose set has exactly
24 entries, `IsPurposeAllowed purposeId` returns (without failing) `true` iff
`1 ≤ purposeId ≤ 24` and bit `132 + purposeId - 1` of `B` is set, and it is
`false` for 0, for 25 and for every negative id. -/
theorem purpose_query (c : String) (B : List Byte) (uc : UserConsent)
    (hB : DecodeString c = .ok B) (h : NewUserConsent c = .ok (uc, none)) :
    uc.purposes.length = 24 ∧
    (∀ purposeId : Int, uc.IsPurposeAllowed purposeId
      = .ok (decide (1 ≤ purposeId ∧ purposeId ≤ 24) && bitAt B (132 + purposeId - 1).toNat)) ∧
    uc.IsPurposeAllowed 0 = .ok false ∧ uc.IsPurposeAllowed 25 = .ok false ∧
    (∀ purposeId : Int, purposeId < 0 → uc.IsPurposeAllowed purposeId = .ok false) := by
  have hp := constructed_purposes hB h
  have hlen : uc.purposes.length = 24 := by rw [hp]; simp
  have hq : ∀ purposeId : Int, uc.IsPurposeAllowed purposeId
      = .ok (decide (1 ≤ purposeId ∧ purposeId ≤ 24) && bitAt B (132 + purposeId - 1).toNat) := by
    intro p
    rw [IsPurposeAllowed_eq, hlen]
    by_cases hin : 1 ≤ p ∧ p ≤ 24
    · have hlt : (p - 1).toNat < 24 := by omega
      have hidx : (132 + p - 1).toNat = 132 + (p - 1).toNat := by omega
      simp only [Nat.cast_ofNat, hin, and_self, decide_True, Bool.true_and, Except.ok.injEq]
      rw [hp, hidx, List.getD_eq_getElem _ _ (by simpa using hlt)]
      simp
    · simp [hin]
  refine ⟨hlen, hq, ?_, ?_, ?_⟩
  · rw [hq]; rfl
  · rw [hq]; rfl
  · intro p hneg
    rw [hq]
    have : ¬ (1 ≤ p ∧ p ≤ 24) := by omega
    simp [this]

/-- The purposes of `token1`: 2 and 21 are allowed, 1 is denied. -/
theorem purpose_query_witness :
    (record1.purposes.length = 24 ∧
      (∀ purposeId : Int, record1.IsPurposeAllowed purposeId
        = .ok (decide (1 ≤ purposeId ∧ purposeId ≤ 24)
            && bitAt token1Bytes (132 + purposeId - 1).toNat)) ∧
      record1.IsPurposeAllowed 0 = .ok false ∧ record1.IsPurposeAllowed 25 = .ok false ∧
      (∀ purposeId : Int, purposeId < 0 → record1.IsPurposeAllowed purposeId = .ok false)) ∧
    record1.IsPurposeAllowed 2 = .ok true ∧ record1.IsPurposeAllowed 21 = .ok true ∧
    record1.IsPurposeAllowed 1 = .ok false :=
  ⟨purpose_query token1 token1Bytes record1 rfl rfl, rfl, rfl, rfl⟩

/-- C5: for every record and every list of ids, `ArePurposesAllowed` returns
(without failing) `true` iff `IsPurposeAllowed` is `true` for every id of the
list; it is `true` for the empty list; and for a constructed record a list
with an id outside `1..24` gives `false`. -/
theorem purposes_all_query (uc : UserConsent) (ids : List Int) :
    (∃ r, uc.ArePurposesAllowed ids = .ok r) ∧
    (uc.ArePurposesAllowed ids = .ok true ↔ ∀ id ∈ ids, uc.IsPurposeAllowed id = .ok true) ∧
    uc.ArePurposesAllowed [] = .ok true ∧
    (∀ (c : String) (B : List Byte), DecodeString c = .ok B → NewUserConsent c = .ok (uc, none) →
      (∃ id ∈ ids, id < 1 ∨ 24 < id) → uc.ArePurposesAllowed ids = .ok false) := by
  refine ⟨⟨_, ArePurposesAllowed_eq uc ids⟩, ?_, rfl, ?_⟩
  · rw [ArePurposesAllowed_eq]
    simp only [Except.ok.injEq, List.all_eq_true, IsPurposeAllowed_eq]
  · intro c B hB h ⟨id, hmem, hout⟩
    have hlen : uc.purposes.length = 24 := by rw [constructed_purposes hB h]; simp
    rw [ArePurposesAllowed_eq, hlen]
    have hfalse : decide (1 ≤ id ∧ id ≤ ((24 : Nat) : Int)) = false := by
      simp only [Nat.cast_ofNat, decide_eq_false_iff_not]; omega
    simp only [Except.ok.injEq, List.all_eq_false]
    exact ⟨id, hmem, by rw [hfalse]; simp⟩

/-- On `token1` the purposes 2 and 21 are allowed together, and adding the
id 25 gives `false`. -/
theorem purposes_all_query_witness :
    record1.ArePurposesAllowed [2, 21] = .ok true ∧
    record1.ArePurposesAllowed [2, 25] = .ok false :=
  ⟨((purposes_all_query record1 [2, 21]).2.1).mpr (by
      intro id hid
      simp only [List.mem_cons, List.mem_singleton, List.not_mem_nil, or_false] at hid
      rcases hid with rfl | rfl <;> rfl),
    (purposes_all_query record1 [2, 25]).2.2.2 token1 token1Bytes rfl rfl
      ⟨25, by simp, by decide⟩⟩

/-! ## Malformed input -/

theorem decodeMap_eq_none {ch : Char} (h : ch ∉ encodeURL) : decodeMap ch = none := by
  unfold decodeMap
  have : ¬ encodeURL.indexOf ch < encodeURL.length := by
    rw [List.indexOf_lt_length]; exact h
  simp only [this, if_false]

/-- The decoder rejects every input with a character that is neither in the
alphabet nor a line break, whatever it has read before. -/
theorem decodeQuanta_corrupt :
    ∀ (l : List Char) (pend : List Nat) (out : List Byte),
      (∃ ch ∈ l, ch ∉ encodeURL ∧ ch ≠ '\n' ∧ ch ≠ '\r') →
      decodeQuanta l pend out = .error .corruptInput := by
  intro l
  induction l with
  | nil => intro _ _ ⟨ch, hmem, _⟩; simp at hmem
  | cons a rest ih =>
    intro pend out ⟨ch, hmem, hout, hn, hr⟩
    rcases List.mem_cons.mp hmem with rfl | hrest
    · unfold decodeQuanta
      rw [decodeMap_eq_none hout]
      simp only [hn, hr, or_self, if_false]
    · have hex : ∃ ch ∈ rest, ch ∉ encodeURL ∧ ch ≠ '\n' ∧ ch ≠ '\r' := ⟨ch, hrest, hout, hn, hr⟩
      unfold decodeQuanta
      cases hd : decodeMap a with
      | none =>
        simp only
        split
        · exact ih _ _ hex
        · rfl
      | some d =>
        simp only
        split
        · exact ih _ _ hex
        · exact ih _ _ hex

/-- C7 (amended): for every input string with at least one character that is
neither in the URL-safe base64 alphabet nor a carriage return or line feed
(the padding character `=` is such a character), `NewUserConsent` returns a
decode error together with the zero-valued record. -/
theorem malformed_input_rejected (c : String)
    (h : ∃ ch ∈ c.data, ch ∉ encodeURL ∧ ch ≠ '\n' ∧ ch ≠ '\r') :
    NewUserConsent c = .ok (UserConsent.zero, some .corruptInput) := by
  unfold NewUserConsent DecodeString
  rw [decodeQuanta_corrupt _ _ _ h]

/-- The token `token1` with a padding character appended is rejected. -/
theorem malformed_input_rejected_witness :
    (∃ ch ∈ token1Padded.data, ch ∉ encodeURL ∧ ch ≠ '\n' ∧ ch ≠ '\r') ∧
    NewUserConsent token1Padded = .ok (UserConsent.zero, some .corruptInput) :=
  ⟨⟨'=', by decide, by decide, by decide, by decide⟩,
    malformed_input_rejected token1Padded ⟨'=', by decide, by decide, by decide, by decide⟩⟩

/-- C7 as stated fails on a line feed: `token1Newline` contains a character
outside the alphabet, the decoder skips it, and `NewUserConsent` returns no
error and the populated record of `token1`. -/
theorem line_feed_accepted :
    (∃ ch ∈ token1Newline.data, ch ∉ encodeURL) ∧
    NewUserConsent token1Newline
      = .ok ({ record1 with ConsentString := token1Newline }, none) :=
  ⟨⟨'\n', by decide, by decide⟩, rfl⟩

/-! ## Vendor ids outside the encoded data -/

theorem appendRange_mem :
    ∀ (n : Nat) (s : Int) (acc : List Int) (id : Int), 0 ≤ s → s + n ≤ 4611686018427387904 →
      id ∈ appendRange n s acc → id ∈ acc ∨ (s ≤ id ∧ id < s + n) := by
  intro n
  induction n with
  | zero => intro s acc id _ _ h; exact Or.inl h
  | succ n ih =>
    intro s acc id hs hb h
    rw [appendRange, wrap64_of_range (by omega) (by omega)] at h
    have hb2 : s + 1 + (n : Int) ≤ 4611686018427387904 := by push_cast at hb; omega
    rcases ih (s + 1) (acc ++ [s]) id (by omega) hb2 h with h1 | h1
    · rcases List.mem_append.mp h1 with h2 | h2
      · exact Or.inl h2
      · simp only [List.mem_singleton] at h2
        right; push_cast; omega
    · right; push_cast; omega

theorem NewRangeEntry_within {v : Int} (h0 : 0 ≤ v) (h1 : v < 65536) :
    (NewRangeEntry v).Within16 := by
  refine ⟨?_, h0, h1⟩
  intro id hid
  simp only [NewRangeEntry, List.mem_singleton] at hid
  omega

theorem NewRangeEntryWithRange_within {s e : Int} {r : RangeEntry} (hs0 : 0 ≤ s)
    (hs1 : s < 65536) (he0 : 0 ≤ e) (he1 : e < 65536)
    (h : NewRangeEntryWithRange s e = .ok r) : r.Within16 := by
  unfold NewRangeEntryWithRange at h
  rw [wrap64_of_range (by omega) (by omega)] at h
  by_cases hneg : e - s < 0
  · rw [if_pos hneg] at h; cases h
  · rw [if_neg hneg, if_neg (by omega)] at h
    simp only [Except.ok.injEq] at h
    subst h
    refine ⟨?_, he0, he1⟩
    intro id hid
    have hcast : (((e - s + 1).toNat : Nat) : Int) = e - s + 1 := by omega
    rcases appendRange_mem _ _ _ _ hs0 (by omega) hid with h1 | h1
    · simp at h1
    · omega

theorem getInt_of_nonneg (b : bits) {start : Int} (w : Nat) (h0 : 0 ≤ start) (hw : w ≤ 63)
    (hs : start + w ≤ 9223372036854775808) :
    b.getInt start (w : Int) = .ok ((bitsValue b.bytes start.toNat w : Nat) : Int) := by
  obtain ⟨n, rfl⟩ := Int.eq_ofNat_of_zero_le h0
  simpa using getInt_natCast b n w hw (by omega)

/-- Every entry that the range-entry loop appends is within 16 bits. -/
theorem rangeEntriesLoop_within (b : bits) :
    ∀ (n : Nat) (off : Int) (acc es : List RangeEntry), 0 ≤ off → off + 33 * n ≤ 1099511627776 →
      (∀ e ∈ acc, e.Within16) → rangeEntriesLoop b n off acc = .ok es →
      ∀ e ∈ es, e.Within16 := by
  intro n
  induction n with
  | zero =>
    intro off acc es _ _ hacc h
    simp only [rangeEntriesLoop, Except.ok.injEq] at h
    subst h; exact hacc
  | succ n ih =>
    intro off acc es h0 hoff hacc h
    push_cast at hoff
    have c4 : vendorIDSize = ((16 : Nat) : Int) := rfl
    have g1 : b.getInt (off + 1) vendorIDSize
        = .ok ((bitsValue b.bytes (off + 1).toNat 16 : Nat) : Int) := by
      rw [c4]; exact getInt_of_nonneg b 16 (by omega) (by decide) (by push_cast; omega)
    have g2 : b.getInt (off + 1 + vendorIDSize) vendorIDSize
        = .ok ((bitsValue b.bytes (off + 1 + vendorIDSize).toNat 16 : Nat) : Int) := by
      rw [c4]; exact getInt_of_nonneg b 16 (by omega) (by decide) (by push_cast; omega)
    have l1 : ((bitsValue b.bytes (off + 1).toNat 16 : Nat) : Int) < 65536 := by
      have := bitsValue_lt b.bytes (off + 1).toNat 16; omega
    have l2 : ((bitsValue b.bytes (off + 1 + vendorIDSize).toNat 16 : Nat) : Int) < 65536 := by
      have := bitsValue_lt b.bytes (off + 1 + vendorIDSize).toNat 16; omega
    have hv : vendorIDSize = 16 := rfl
    rw [rangeEntriesLoop, getBit_of_nonneg b h0] at h
    cases hbit : bitAt b.bytes off.toNat
    · rw [hbit] at h
      simp only [bind, Except.bind, Bool.false_eq_true, if_false] at h
      rw [g1] at h
      simp only at h
      refine ih _ _ es (by omega) (by omega) ?_ h
      intro e he
      rcases List.mem_append.mp he with h1 | h1
      · exact hacc e h1
      · simp only [List.mem_singleton] at h1
        subst h1
        exact NewRangeEntry_within (by omega) l1
    · rw [hbit] at h
      simp only [bind, Except.bind, if_true] at h
      rw [g1] at h
      simp only at h
      rw [g2] at h
      simp only at h
      cases hr : NewRangeEntryWithRange (bitsValue b.bytes (off + 1).toNat 16)
          (bitsValue b.bytes (off + 1 + vendorIDSize).toNat 16) with
      | error p => rw [hr] at h; cases h
      | ok r =>
        rw [hr] at h
        refine ih _ _ es (by omega) (by omega) ?_ h
        intro e he
        rcases List.mem_append.mp he with h1 | h1
        · exact hacc e h1
        · simp only [List.mem_singleton] at h1
          subst h1
          exact NewRangeEntryWithRange_within (by omega) l1 (by omega) l2 hr

theorem containsVendorId_of_outside {e : RangeEntry} (he : e.Within16) {v : Int}
    (hv : v < 0 ∨ 65536 ≤ v) : e.containsVendorId v = false := by
  unfold RangeEntry.containsVendorId
  rw [List.any_eq_false]
  intro id hid
  have := he.1 id hid
  simp only [decide_eq_true_eq]
  omega

theorem goIndex_of_lt {α : Type} (xs : List α) {i : Int} (h0 : 0 ≤ i)
    (h1 : i < (xs.length : Int)) : ∃ x ∈ xs, goIndex xs i = .ok x := by
  obtain ⟨n, rfl⟩ := Int.eq_ofNat_of_zero_le h0
  have hlt : n < xs.length := by exact_mod_cast h1
  refine ⟨xs.get ⟨n, hlt⟩, List.get_mem _ _ _, ?_⟩
  rw [goIndex_natCast, List.get?_eq_get hlt]

/-- The probe of an id above every 16-bit value moves up, or stops at an end. -/
theorem probe_above {es : List RangeEntry} (hall : ∀ e ∈ es, e.Within16) {v index : Int}
    (hv : 65536 ≤ v) (h0 : 0 ≤ index) (h1 : index < (es.length : Int)) :
    probe es v index
      = .ok (if index = 0 ∨ index = (es.length : Int) - 1 then .ret false
          else .next (index + Int.tdiv ((es.length : Int) - index) 2)) := by
  obtain ⟨e, he, hget⟩ := goIndex_of_lt es h0 h1
  have hc := containsVendorId_of_outside (hall e he) (Or.inr hv : v < 0 ∨ 65536 ≤ v)
  have hg : e.idIsGreaterThanMax v = true := by
    unfold RangeEntry.idIsGreaterThanMax
    have := (hall e he).2.2
    simp only [gt_iff_lt, decide_eq_true_eq]; omega
  unfold probe
  simp only [h0, h1, ge_iff_le, and_self, if_true, hget, bind, Except.bind, hc, hg,
    Bool.false_eq_true, if_false, pure, Except.pure]
  split <;> rfl

/-- The probe of a negative id moves down, or stops at an end. -/
theorem probe_below {es : List RangeEntry} (hall : ∀ e ∈ es, e.Within16) {v index : Int}
    (hv : v < 0) (h0 : 0 ≤ index) (h1 : index < (es.length : Int)) :
    probe es v index
      = .ok (if index = 0 ∨ index = (es.length : Int) - 1 then .ret false
          else .next (Int.tdiv index 2)) := by
  obtain ⟨e, he, hget⟩ := goIndex_of_lt es h0 h1
  have hc := containsVendorId_of_outside (hall e he) (Or.inl hv : v < 0 ∨ 65536 ≤ v)
  have hg : e.idIsGreaterThanMax v = false := by
    unfold RangeEntry.idIsGreaterThanMax
    have := (hall e he).2.1
    simp only [gt_iff_lt, decide_eq_false_iff_not]; omega
  unfold probe
  simp only [h0, h1, ge_iff_le, and_self, if_true, hget, bind, Except.bind, hc, hg,
    Bool.false_eq_true, if_false, pure, Except.pure]
  split <;> rfl

/-- For an id above every 16-bit value the search climbs to the last index and
returns "not present". -/
theorem findLoop_above {es : List RangeEntry} (hall : ∀ e ∈ es, e.Within16) {v : Int}
    (hv : 65536 ≤ v) :
    ∀ (fuel : Nat) (index : Int), 0 ≤ index → index < (es.length : Int) →
      (es.length : Int) ≤ index + fuel → findLoop es v fuel index = some (.ok false) := by
  intro fuel
  induction fuel with
  | zero => intro index _ h1 h2; simp only [Nat.cast_zero] at h2; omega
  | succ n ih =>
    intro index h0 h1 h2
    rw [findLoop, probe_above hall hv h0 h1]
    by_cases hend : index = 0 ∨ index = (es.length : Int) - 1
    · rw [if_pos hend]
    · rw [if_neg hend]
      have hd : Int.tdiv ((es.length : Int) - index) 2 = ((es.length : Int) - index) / 2 :=
        Int.tdiv_eq_ediv (by omega) (by omega)
      push_cast at h2
      exact ih _ (by rw [hd]; omega) (by rw [hd]; omega) (by rw [hd]; omega)

/-- For a negative id the search descends to index 0 and returns "not
present". -/
theorem findLoop_below {es : List RangeEntry} (hall : ∀ e ∈ es, e.Within16) {v : Int}
    (hv : v < 0) :
    ∀ (fuel : Nat) (index : Int), 0 ≤ index → index < (es.length : Int) →
      index < fuel → findLoop es v fuel index = some (.ok false) := by
  intro fuel
  induction fuel with
  | zero => intro index h0 _ h2; simp only [Nat.cast_zero] at h2; omega
  | succ n ih =>
    intro index h0 h1 h2
    rw [findLoop, probe_below hall hv h0 h1]
    by_cases hend : index = 0 ∨ index = (es.length : Int) - 1
    · rw [if_pos hend]
    · rw [if_neg hend]
      have hd : Int.tdiv index 2 = index / 2 := Int.tdiv_eq_ediv (by omega) (by omega)
      push_cast at h2
      exact ih _ (by rw [hd]; omega) (by rw [hd]; omega) (by rw [hd]; omega)

/-- With entries within 16 bits and at least `len` iterations, the range
search returns "not present" for every id outside `0..65535`. -/
theorem findVendorIdInRange_outside (uc : UserConsent) (hall : ∀ e ∈ uc.rangeEntries, e.Within16)
    {v : Int} (hv : v < 0 ∨ 65536 ≤ v) {fuel : Nat} (hf : uc.rangeEntries.length ≤ fuel) :
    uc.findVendorIdInRange fuel v = some (.ok false) := by
  unfold UserConsent.findVendorIdInRange
  by_cases hz : (uc.rangeEntries.length : Int) = 0
  · simp only [hz, if_true]
  · simp only [hz, if_false]
    have hd : Int.tdiv (uc.rangeEntries.length : Int) 2 = (uc.rangeEntries.length : Int) / 2 :=
      Int.tdiv_eq_ediv (by omega) (by omega)
    have hf2 : (uc.rangeEntries.length : Int) ≤ fuel := by exact_mod_cast hf
    rw [hd]
    rcases hv with hv | hv
    · exact findLoop_below hall hv fuel _ (by omega) (by omega) (by omega)
    · exact findLoop_above hall hv fuel _ (by omega) (by omega) (by omega)

/-- A record constructed from bytes whose bit 172 is set is in RANGE mode,
its default is bit 173 and its entries are within 16 bits. -/
theorem constructed_range {c : String} {B : List Byte} {uc : UserConsent}
    (hB : DecodeString c = .ok B) (h : NewUserConsent c = .ok (uc, none))
    (henc : bitAt B 172 = true) :
    uc.vendorEncodingType = vendorEncodingRange ∧ uc.defaultConsent = bitAt B 173 ∧
    ∀ e ∈ uc.rangeEntries, e.Within16 := by
  have h1 : bitsValue B 172 1 = 1 := by rw [bitsValue_one, henc]; rfl
  rcases constructed_cases hB h with ⟨h0, _⟩ | ⟨_, es, hes, rfl⟩
  · exact absurd h1 h0
  · refine ⟨?_, rfl, ?_⟩
    · show ((bitsValue B 172 1 : Nat) : Int) = 1
      rw [h1]; rfl
    · have hn := bitsValue_lt B 174 12
      refine rangeEntriesLoop_within ⟨B⟩ _ _ [] es (by decide) ?_ (by simp) hes
      unfold rangeEntryOffset
      norm_num at hn
      omega

/-- C10 (amended): `IsVendorAllowed` does not consult `maxVendorId`.  For every
constructed record: in BITFIELD mode every `vendorId ≥ 1` whose bit index
`173 + vendorId - 1` is at least `8 * len(B)` (and fits the 64-bit `int`) is
denied; in RANGE mode every `vendorId` outside `0..65535` gets
`defaultConsent`, which is bit 173, once the search is given at least as many
iterations as there are entries. -/
theorem vendor_outside_encoded_data (c : String) (B : List Byte) (uc : UserConsent)
    (hB : DecodeString c = .ok B) (h : NewUserConsent c = .ok (uc, none))
    (fuel : Nat) (vendorId : Int) :
    (bitAt B 172 = false → 1 ≤ vendorId → vendorId ≤ 9223372036854775635 →
      (8 * B.length : Int) ≤ 173 + vendorId - 1 →
      uc.IsVendorAllowed fuel vendorId = some (.ok false)) ∧
    (bitAt B 172 = true → (vendorId < 0 ∨ 65536 ≤ vendorId) → uc.rangeEntries.length ≤ fuel →
      uc.defaultConsent = bitAt B 173 ∧
      uc.IsVendorAllowed fuel vendorId = some (.ok uc.defaultConsent)) := by
  constructor
  · intro henc h1 h2 hlen
    rw [bitfield_query_eq hB h henc fuel (by omega : 0 ≤ vendorId) h2,
      bitAt_of_length_le B (by omega)]
  · intro henc hv hf
    obtain ⟨hmode, hdef, hall⟩ := constructed_range hB h henc
    refine ⟨hdef, ?_⟩
    unfold UserConsent.IsVendorAllowed
    rw [if_pos hmode, findVendorIdInRange_outside uc hall hv hf]
    simp

/-- On `token1` (23 bytes) vendor 12 reads bit 184 and is denied; on `token2`
vendor 70000 gets the default consent `false`. -/
theorem vendor_outside_encoded_data_witness :
    record1.IsVendorAllowed 0 12 = some (.ok false) ∧
    (record2.defaultConsent = bitAt token2Bytes 173 ∧
      record2.IsVendorAllowed 5 70000 = some (.ok record2.defaultConsent)) :=
  ⟨(vendor_outside_encoded_data token1 token1Bytes record1 rfl rfl 0 12).1 rfl (by decide)
      (by decide) (by decide),
    (vendor_outside_encoded_data token2 token2Bytes record2 rfl rfl 5 70000).2 rfl
      (Or.inr (by decide)) (by decide)⟩

/-- C10 as stated fails in three ways.  On `token1` (BITFIELD) vendor -2 is
below 1 and is allowed: it reads bit 170, a bit of the `maxVendorId` field.
On `tokenMaxThree` (BITFIELD, `maxVendorId` 3) vendor 5 is allowed.  On
`tokenDefaultTrue` (RANGE, `maxVendorId` 20, default consent `true`) vendor 21
is allowed. -/
theorem vendor_outside_declared_range_allowed :
    (NewUserConsent token1 = .ok (record1, none) ∧ (-2 : Int) < 1 ∧
      record1.IsVendorAllowed 0 (-2) = some (.ok true)) ∧
    (NewUserConsent tokenMaxThree = .ok (recordMaxThree, none) ∧
      recordMaxThree.maxVendorSize = 3 ∧ recordMaxThree.maxVendorSize < 5 ∧
      recordMaxThree.IsVendorAllowed 0 5 = some (.ok true)) ∧
    (NewUserConsent tokenDefaultTrue = .ok (recordDefaultTrue, none) ∧
      recordDefaultTrue.maxVendorSize = 20 ∧ recordDefaultTrue.maxVendorSize < 21 ∧
      recordDefaultTrue.IsVendorAllowed 0 21 = some (.ok true)) :=
  ⟨⟨rfl, by decide, rfl⟩, ⟨rfl, rfl, by decide, rfl⟩, ⟨rfl, rfl, by decide, rfl⟩⟩

/-! ## Negative indices and prefixes -/

theorem mask_zero (x k : Nat) (hk : 8 ≤ k) : x &&& (0x80 >>> k) = 0 := by
  have h : (0x80 >>> k) = 0 := by
    rw [Nat.shiftRight_eq_div_pow]
    apply Nat.div_eq_of_lt
    calc 128 < 2 ^ 8 := by norm_num
      _ ≤ 2 ^ k := Nat.pow_le_pow_right (by norm_num) hk
  rw [h]; simp

/-- At a negative index `getBit` panics or returns `false`. -/
theorem getBit_of_neg (b : bits) {i : Int} (h : i < 0) :
    b.getBit i = .ok false ∨ b.getBit i = .error .indexOutOfRange := by
  obtain ⟨m, hm⟩ : ∃ m : Nat, i = -(m : Int) := ⟨(-i).toNat, by omega⟩
  have hd : Int.tdiv i 8 = -((m / 8 : Nat) : Int) := by
    rw [hm, Int.neg_tdiv, Int.tdiv_eq_ediv (by omega) (by omega)]; omega
  have hmod : Int.tmod i 8 = -((m % 8 : Nat) : Int) := by
    have := Int.tmod_add_tdiv i 8
    rw [hd] at this
    omega
  unfold bits.getBit
  simp only [hd, hmod]
  by_cases hlen : -((m / 8 : Nat) : Int) ≥ (b.bytes.length : Int)
  · left; rw [if_pos hlen]
  · rw [if_neg hlen]
    by_cases hq : m / 8 = 0
    · have hlt : 0 < b.bytes.length := by omega
      have hu : 8 ≤ uint (-((m % 8 : Nat) : Int)) := by
        unfold uint; omega
      left
      rw [hq]
      simp only [Nat.cast_zero, neg_zero]
      have : goIndex b.bytes 0 = .ok (b.bytes.get ⟨0, hlt⟩) := by
        have := goIndex_natCast b.bytes 0
        rw [List.get?_eq_get hlt] at this
        simpa using this
      rw [this]
      simp only [bind, Except.bind, pure, Except.pure, mask_zero _ _ hu]
      simp
    · right
      have hneg : -((m / 8 : Nat) : Int) < 0 := by omega
      unfold goIndex
      rw [if_pos hneg]
      rfl

theorem getBit_true_nonneg (b : bits) {i : Int} (h : b.getBit i = .ok true) : 0 ≤ i := by
  by_contra hneg
  rcases getBit_of_neg b (by omega : i < 0) with h1 | h1 <;> rw [h1] at h <;> cases h

theorem bitAt_lt_of_true {B : List Byte} {i : Nat} (h : bitAt B i = true) : i < 8 * B.length := by
  by_contra hge
  rw [bitAt_of_length_le B (by omega)] at h
  cases h

theorem bitAt_append_left (B T : List Byte) {i : Nat} (h : i < 8 * B.length) :
    bitAt (B ++ T) i = bitAt B i := by
  unfold bitAt
  have hlt : i / 8 < B.length := by omega
  simp only [List.get?_eq_getElem?]
  rw [List.getElem?_append_left hlt]

/-! ## Truncation -/

/-- C11 (amended): for every byte sequence `B' ++ T`, its prefix `B'` whose
encoding-type bit 172 is 0 (BITFIELD mode), and every `vendorId ≥ 1` of the
64-bit `int`: when records are constructed from both and the record decoded
from `B'` allows `vendorId`, the record decoded from `B' ++ T` allows it too. -/
theorem truncation_fails_closed_bitfield (c' c : String) (B' T : List Byte)
    (uc' uc : UserConsent) (hB' : DecodeString c' = .ok B')
    (h' : NewUserConsent c' = .ok (uc', none)) (hB : DecodeString c = .ok (B' ++ T))
    (h : NewUserConsent c = .ok (uc, none)) (henc : bitAt B' 172 = false)
    (vendorId : Int) (h1 : 1 ≤ vendorId) (h2 : vendorId < 9223372036854775808)
    (fuel' fuel : Nat) (hallow : uc'.IsVendorAllowed fuel' vendorId = some (.ok true)) :
    uc.IsVendorAllowed fuel vendorId = some (.ok true) := by
  obtain ⟨rfl, hmode'⟩ := constructed_bitfield hB' h' henc
  rw [IsVendorAllowed_bitfield _ _ _ hmode'] at hallow
  have hget : bits.getBit ⟨B'⟩ (wrap64 (wrap64 (vendorBitFieldOffset + vendorId) - 1))
      = .ok true := by
    simpa using hallow
  have hnn := getBit_true_nonneg _ hget
  have hidx : wrap64 (wrap64 (vendorBitFieldOffset + vendorId) - 1) = 173 + vendorId - 1 := by
    unfold vendorBitFieldOffset wrap64 at hnn ⊢
    omega
  have hsmall : vendorId ≤ 9223372036854775635 := by
    rw [hidx] at hnn
    unfold vendorBitFieldOffset wrap64 at hidx
    omega
  rw [hidx, getBit_of_nonneg _ (by omega)] at hget
  have hbit : bitAt B' (173 + vendorId - 1).toNat = true := by simpa using hget
  have hlt := bitAt_lt_of_true hbit
  have henc2 : bitAt (B' ++ T) 172 = false := by
    rw [bitAt_append_left B' T (by omega)]; exact henc
  rw [bitfield_query_eq hB h henc2 fuel (by omega : 0 ≤ vendorId) hsmall,
    bitAt_append_left B' T hlt, hbit]

/-- Vendor 1 is allowed by the first 22 bytes of `token1`, hence by `token1`. -/
theorem truncation_fails_closed_bitfield_witness :
    token1Bytes = token1CutBytes ++ [212] ∧
    record1Cut.IsVendorAllowed 0 1 = some (.ok true) ∧
    record1.IsVendorAllowed 0 1 = some (.ok true) :=
  ⟨rfl, rfl,
    truncation_fails_closed_bitfield token1Cut token1 token1CutBytes [212] record1Cut record1
      rfl rfl rfl rfl rfl 1 (by decide) (by decide) 0 0 rfl⟩

/-- C11 as stated fails in RANGE mode.  `tokenEntryNineCutBytes` is
`tokenEntryNineBytes` without its last byte; both construct a record with
`defaultConsent` false.  The full record lists vendor 9 and denies vendor 8;
in the truncated record the missing low bits of the id read as 0, the entry
is vendor 8, and vendor 8 is allowed. -/
theorem truncation_allows_denied_vendor :
    DecodeString tokenEntryNine = .ok tokenEntryNineBytes ∧
    DecodeString tokenEntryNineCut = .ok tokenEntryNineCutBytes ∧
    tokenEntryNineBytes = tokenEntryNineCutBytes ++ [32] ∧
    NewUserConsent tokenEntryNine = .ok (recordEntryNine, none) ∧
    NewUserConsent tokenEntryNineCut = .ok (recordEntryNineCut, none) ∧
    (∀ fuel, recordEntryNineCut.IsVendorAllowed (fuel + 1) 8 = some (.ok true)) ∧
    (∀ fuel, recordEntryNine.IsVendorAllowed (fuel + 1) 8 = some (.ok false)) :=
  ⟨rfl, rfl, rfl, rfl, rfl, fun _ => rfl, fun _ => rfl⟩

/-! ## The consent string -/

theorem unchanged_ok {α : Type} {uc uc1 : UserConsent} {o : Option (Go α)} {r : α}
    (h : unchanged uc o = some (.ok (r, uc1))) : uc1 = uc := by
  unfold unchanged at h
  cases o with
  | none => simp at h
  | some g =>
    cases g with
    | error p => simp [Except.map] at h
    | ok a =>
      simp only [Option.map_some', Except.map, Option.some.injEq, Except.ok.injEq,
        Prod.mk.injEq] at h
      exact h.2.symm

theorem eval_eq {α : Type} (g : Go α) (uc : UserConsent) :
    Method.eval g uc = unchanged uc (some g) := by
  cases g <;> rfl

/-- `IsPurposeAllowed` with its receiver: the result of `IsPurposeAllowed`, and
the record as it was. -/
theorem IsPurposeAllowedM_eq (purposeId : Int) (uc : UserConsent) :
    IsPurposeAllowedM purposeId uc = unchanged uc (some (uc.IsPurposeAllowed purposeId)) := by
  unfold IsPurposeAllowedM UserConsent.IsPurposeAllowed
  simp only [bind, Method.andThen, Method.read, pure, Method.ret]
  by_cases hg : purposeId < 1 ∨ purposeId > (uc.purposes.length : Int)
  · rw [if_pos hg, if_pos hg]; rfl
  · rw [if_neg hg, if_neg hg]
    simp only [Method.andThen, Method.read]
    exact eval_eq _ uc

/-- `ArePurposesAllowed` with its receiver: the result of `ArePurposesAllowed`,
and the record as it was. -/
theorem ArePurposesAllowedM_eq (uc : UserConsent) (ids : List Int) :
    ArePurposesAllowedM ids uc = unchanged uc (some (uc.ArePurposesAllowed ids)) := by
  induction ids with
  | nil => rfl
  | cons p rest ih =>
    unfold ArePurposesAllowedM UserConsent.ArePurposesAllowed
    simp only [bind, Method.andThen, Method.read, pure, Method.ret]
    by_cases hg : p < 1 ∨ p > (uc.purposes.length : Int)
    · rw [if_pos hg, if_pos hg]; rfl
    · rw [if_neg hg, if_neg hg]
      simp only [Method.andThen, Method.read]
      cases hidx : goIndex uc.purposes (p - 1) with
      | error e => rfl
      | ok allowed =>
        simp only [Method.eval, Except.bind]
        cases allowed
        · rfl
        · simpa using ih

/-- The search loop with its receiver: the result of `findLoop`, and the record
as it was. -/
theorem findLoopM_eq (uc : UserConsent) (vendorId : Int) :
    ∀ (fuel : Nat) (index : Int),
      findLoopM vendorId (uc.rangeEntries.length : Int) fuel index uc
        = unchanged uc (findLoop uc.rangeEntries vendorId fuel index) := by
  intro fuel
  induction fuel with
  | zero => intro index; rfl
  | succ n ih =>
    intro index
    unfold findLoopM findLoop probe
    by_cases hg : index ≥ 0 ∧ index < (uc.rangeEntries.length : Int)
    · simp only [hg, and_self, if_true, bind, Method.andThen, Method.read]
      cases hidx : goIndex uc.rangeEntries index with
      | error e => rfl
      | ok entry =>
        simp only [Method.eval, Except.bind]
        by_cases hc : entry.containsVendorId vendorId = true
        · simp only [hc, if_true]; rfl
        · simp only [hc, if_false]
          by_cases hend : index = 0 ∨ index = (uc.rangeEntries.length : Int) - 1
          · simp only [hend, if_true]; rfl
          · simp only [hend, if_false]
            by_cases hgt : entry.idIsGreaterThanMax vendorId = true
            · simp only [hgt, if_true, pure, Except.pure]
              exact ih _
            · simp only [hgt, if_false, pure, Except.pure]
              exact ih _
    · simp only [hg, if_false]
      rfl

/-- `IsVendorAllowed` with its receiver: the outcome of `IsVendorAllowed`, and
the record as it was. -/
theorem IsVendorAllowedM_eq (uc : UserConsent) (fuel : Nat) (vendorId : Int) :
    IsVendorAllowedM fuel vendorId uc = unchanged uc (uc.IsVendorAllowed fuel vendorId) := by
  unfold IsVendorAllowedM UserConsent.IsVendorAllowed
  simp only [bind, Method.andThen, Method.read]
  by_cases hmode : uc.vendorEncodingType = vendorEncodingRange
  · rw [if_pos hmode, if_pos hmode]
    unfold findVendorIdInRangeM UserConsent.findVendorIdInRange
    simp only [bind, Method.andThen, Method.read, pure, Method.ret]
    by_cases hz : (uc.rangeEntries.length : Int) = 0
    · simp only [hz, if_true]
      rfl
    · simp only [hz, if_false, findLoopM_eq]
      cases findLoop uc.rangeEntries vendorId fuel
          (Int.tdiv (uc.rangeEntries.length : Int) 2) with
      | none => rfl
      | some g =>
        cases g with
        | error e => rfl
        | ok present => rfl
  · rw [if_neg hmode, if_neg hmode]
    simp only [Method.andThen, Method.read]
    exact eval_eq _ uc

/-- C12: for every input `c` for which `NewUserConsent` returns a record, the
field `ConsentString` of the record is `c` itself; every call of a query
method (`IsPurposeAllowed`, `ArePurposesAllowed`, `IsVendorAllowed`) on the
record has the outcome of the query and, when it returns, leaves the record,
and so its `ConsentString`, as it was. -/
theorem consent_string_verbatim (c : String) (uc : UserConsent)
    (h : NewUserConsent c = .ok (uc, none)) :
    uc.ConsentString = c ∧
    (∀ purposeId : Int,
      IsPurposeAllowedM purposeId uc = unchanged uc (some (uc.IsPurposeAllowed purposeId))) ∧
    (∀ purposeIds : List Int,
      ArePurposesAllowedM purposeIds uc
        = unchanged uc (some (uc.ArePurposesAllowed purposeIds))) ∧
    (∀ (fuel : Nat) (vendorId : Int),
      IsVendorAllowedM fuel vendorId uc = unchanged uc (uc.IsVendorAllowed fuel vendorId)) ∧
    (∀ (purposeId : Int) (r : Bool) (uc1 : UserConsent),
      IsPurposeAllowedM purposeId uc = some (.ok (r, uc1)) →
      uc1 = uc ∧ uc1.ConsentString = c) ∧
    (∀ (purposeIds : List Int) (r : Bool) (uc1 : UserConsent),
      ArePurposesAllowedM purposeIds uc = some (.ok (r, uc1)) →
      uc1 = uc ∧ uc1.ConsentString = c) ∧
    (∀ (fuel : Nat) (vendorId : Int) (r : Bool) (uc1 : UserConsent),
      IsVendorAllowedM fuel vendorId uc = some (.ok (r, uc1)) →
      uc1 = uc ∧ uc1.ConsentString = c) := by
  have hc : uc.ConsentString = c := by
    cases hB : DecodeString c with
    | error e =>
      unfold NewUserConsent at h
      rw [hB] at h
      simp at h
    | ok B =>
      rcases constructed_cases hB h with ⟨_, rfl⟩ | ⟨_, es, _, rfl⟩ <;> rfl
  refine ⟨hc, fun id => IsPurposeAllowedM_eq id uc, fun ids => ArePurposesAllowedM_eq uc ids,
    fun fuel v => IsVendorAllowedM_eq uc fuel v, ?_, ?_, ?_⟩
  · intro purposeId r uc1 hcall
    rw [IsPurposeAllowedM_eq] at hcall
    have := unchanged_ok hcall
    subst this
    exact ⟨rfl, hc⟩
  · intro purposeIds r uc1 hcall
    rw [ArePurposesAllowedM_eq] at hcall
    have := unchanged_ok hcall
    subst this
    exact ⟨rfl, hc⟩
  · intro fuel vendorId r uc1 hcall
    rw [IsVendorAllowedM_eq] at hcall
    have := unchanged_ok hcall
    subst this
    exact ⟨rfl, hc⟩

/-- The record of `token1` carries `token1`, also after each of the three
queries; the record of `token1` followed by a line feed carries the line feed
as well. -/
theorem consent_string_verbatim_witness :
    record1.ConsentString = "BN5lERiOMYEdiAOAWeFRAAYAAaAAptQ" ∧
    IsPurposeAllowedM 2 record1 = some (.ok (true, record1)) ∧
    ArePurposesAllowedM [2, 21] record1 = some (.ok (true, record1)) ∧
    IsVendorAllowedM 0 5 record1 = some (.ok (true, record1)) ∧
    ({ record1 with ConsentString := token1Newline } : UserConsent).ConsentString
      = "BN5lERiOMYEdiAOAWeFRAAYAAaAAptQ\n" :=
  ⟨(consent_string_verbatim token1 record1 rfl).1,
    rfl, rfl, rfl,
    (consent_string_verbatim token1Newline { record1 with ConsentString := token1Newline } rfl).1⟩

/-! ## `getInt` and `getBit` -/

/-- C13 (amended): for every byte sequence, every `start ≥ 0` and every width
with `0 ≤ width ≤ 36` and `start + width ≤ 2^63` (so that no index
`start + i` overflows), `getInt start width` returns the sum over `i < width`
of `getBit (start + i) * 2^(width - 1 - i)`; the result lies in
`[0, 2^width)`, below `2^63`, and `getInt start 0` is 0. -/
theorem getInt_exact (b : bits) (start width : Int) (h0 : 0 ≤ start) (hw0 : 0 ≤ width)
    (hw : width ≤ 36) (hs : start + width ≤ 9223372036854775808) :
    b.getInt start width = .ok ((bitsValue b.bytes start.toNat width.toNat : Nat) : Int) ∧
    bitsValue b.bytes start.toNat width.toNat
      = ((List.range width.toNat).map fun i =>
          (bitAt b.bytes (start.toNat + i)).toNat * 2 ^ (width.toNat - 1 - i)).sum ∧
    (∀ i : Nat, i < width.toNat →
      b.getBit (start + i) = .ok (bitAt b.bytes (start.toNat + i))) ∧
    bitsValue b.bytes start.toNat width.toNat < 2 ^ width.toNat ∧
    ((bitsValue b.bytes start.toNat width.toNat : Nat) : Int) < 9223372036854775808 ∧
    b.getInt start 0 = .ok 0 := by
  obtain ⟨w, rfl⟩ := Int.eq_ofNat_of_zero_le hw0
  have hw' : w ≤ 36 := by omega
  have hlt := bitsValue_lt b.bytes start.toNat w
  refine ⟨?_, rfl, ?_, ?_, ?_, ?_⟩
  · simpa using getInt_of_nonneg b w h0 (by omega) hs
  · intro i _
    rw [getBit_of_nonneg b (by omega)]
    congr 2
    omega
  · simpa using hlt
  · have hp : 2 ^ w ≤ 2 ^ 36 := Nat.pow_le_pow_right (by norm_num) hw'
    simp only [Int.toNat_ofNat]
    norm_num at hp
    omega
  · rfl

/-- The created field of `token1`: 36 bits from offset 6. -/
theorem getInt_exact_witness :
    bits.getInt ⟨token1Bytes⟩ 6 36 = .ok 14924661858 :=
  (getInt_exact ⟨token1Bytes⟩ 6 36 (by decide) (by decide) (by decide) (by decide)).1.trans rfl

/-- C13 as stated fails at the largest `int`: with `start = 2^63 - 1` and
width 2 the second index `start + 1` wraps to `-2^63`, and `getBit` panics. -/
theorem getInt_panics_on_overflow :
    (0 : Int) ≤ 9223372036854775807 ∧ (0 : Int) ≤ 2 ∧ (2 : Int) ≤ 36 ∧
    bits.getInt ⟨token1Bytes⟩ 9223372036854775807 2 = .error .indexOutOfRange :=
  ⟨by decide, by decide, by decide, rfl⟩

/-- C14: for every byte sequence and every bit index `i ≥ 0`, `getBit i` does
not fail; for `i < 8 * len` it is `true` iff bit `7 - i mod 8` of the byte
`i / 8` is set, and for `i ≥ 8 * len` it is `false`. -/
theorem getBit_spec (b : bits) (i : Int) (h0 : 0 ≤ i) :
    (∃ r, b.getBit i = .ok r) ∧
    (∀ h : i.toNat / 8 < b.bytes.length,
      b.getBit i = .ok ((b.bytes.get ⟨i.toNat / 8, h⟩).val.testBit (7 - i.toNat % 8))) ∧
    (i < 8 * (b.bytes.length : Int) → i.toNat / 8 < b.bytes.length) ∧
    (8 * (b.bytes.length : Int) ≤ i → b.getBit i = .ok false) := by
  have hg := getBit_of_nonneg b h0
  refine ⟨⟨_, hg⟩, ?_, ?_, ?_⟩
  · intro h
    rw [hg]
    unfold bitAt
    rw [List.get?_eq_get h]
  · intro h; omega
  · intro h
    rw [hg, bitAt_of_length_le b.bytes (by omega)]

/-- Bits 5 and 4 of `token1`, whose first byte is `00000100`. -/
theorem getBit_spec_witness :
    bits.getBit ⟨token1Bytes⟩ 5 = .ok true ∧ bits.getBit ⟨token1Bytes⟩ 4 = .ok false ∧
    bits.getBit ⟨token1Bytes⟩ 184 = .ok false := by
  have h5 := (getBit_spec ⟨token1Bytes⟩ 5 (by decide)).2.1 (by decide)
  have h4 := (getBit_spec ⟨token1Bytes⟩ 4 (by decide)).2.1 (by decide)
  exact ⟨h5.trans rfl, h4.trans rfl, (getBit_spec ⟨token1Bytes⟩ 184 (by decide)).2.2.2 (by decide)⟩

/-! ## Membership of a `RangeEntry` -/

theorem appendRange_mem_iff :
    ∀ (n : Nat) (s : Int) (acc : List Int) (id : Int), -9223372036854775808 ≤ s →
      s + n < 9223372036854775808 →
      (id ∈ appendRange n s acc ↔ id ∈ acc ∨ (s ≤ id ∧ id < s + n)) := by
  intro n
  induction n with
  | zero =>
    intro s acc id _ _
    simp only [appendRange, Nat.cast_zero, add_zero]
    constructor
    · exact Or.inl
    · rintro (h | h)
      · exact h
      · omega
  | succ n ih =>
    intro s acc id hs hb
    push_cast at hb
    rw [appendRange, wrap64_of_range (by omega) (by omega), ih (s + 1) _ id (by omega) (by omega)]
    simp only [List.mem_append, List.mem_singleton]
    push_cast
    constructor
    · rintro ((h | h) | h)
      · exact Or.inl h
      · right; omega
      · right; omega
    · rintro (h | h)
      · exact Or.inl (Or.inl h)
      · by_cases hid : id = s
        · exact Or.inl (Or.inr hid)
        · right; omega

/-- C15 (amended): for all `int` values `start ≤ end` with `end` below the
largest `int` and `end - start` within the `int` range, and every `v`,
`NewRangeEntryWithRange start end` returns an entry whose `containsVendorId v`
is `true` iff `start ≤ v ≤ end` and whose `idIsGreaterThanMax v` is `true` iff
`v > end`; for all `id` and `v`, `(NewRangeEntry id).containsVendorId v` is
`true` iff `v = id` and its `idIsGreaterThanMax v` is `true` iff `v > id`. -/
theorem range_entry_membership (startId endId id v : Int) (hse : startId ≤ endId)
    (hs : -9223372036854775808 ≤ startId) (he : endId < 9223372036854775807)
    (hcap : endId - startId < 9223372036854775808) :
    (∃ r, NewRangeEntryWithRange startId endId = .ok r ∧
      (r.containsVendorId v = true ↔ startId ≤ v ∧ v ≤ endId) ∧
      (r.idIsGreaterThanMax v = true ↔ v > endId)) ∧
    ((NewRangeEntry id).containsVendorId v = true ↔ v = id) ∧
    ((NewRangeEntry id).idIsGreaterThanMax v = true ↔ v > id) := by
  refine ⟨?_, ?_, ?_⟩
  · unfold NewRangeEntryWithRange
    rw [wrap64_of_range (by omega) (by omega), if_neg (by omega), if_neg (by omega)]
    refine ⟨_, rfl, ?_, ?_⟩
    · unfold RangeEntry.containsVendorId
      simp only [List.any_eq_true, decide_eq_true_eq]
      have hcast : (((endId - startId + 1).toNat : Nat) : Int) = endId - startId + 1 := by omega
      constructor
      · rintro ⟨x, hx, rfl⟩
        rw [appendRange_mem_iff _ _ _ _ hs (by omega)] at hx
        rcases hx with h | h
        · simp at h
        · omega
      · intro hv
        refine ⟨v, ?_, rfl⟩
        rw [appendRange_mem_iff _ _ _ _ hs (by omega)]
        right; omega
    · simp [RangeEntry.idIsGreaterThanMax]
  · simp only [RangeEntry.containsVendorId, NewRangeEntry, List.any_cons, List.any_nil,
      Bool.or_false, decide_eq_true_eq]
    exact eq_comm
  · simp [RangeEntry.idIsGreaterThanMax, NewRangeEntry]

/-- The range 401-410 of `token2`. -/
theorem range_entry_membership_witness :
    ∃ r, NewRangeEntryWithRange 401 410 = .ok r ∧
      (r.containsVendorId 405 = true ↔ (401 : Int) ≤ 405 ∧ (405 : Int) ≤ 410) ∧
      (r.idIsGreaterThanMax 405 = true ↔ (405 : Int) > 410) :=
  (range_entry_membership 401 410 515 405 (by decide) (by decide) (by decide) (by decide)).1

/-- C15 as stated fails at the ends of the `int` range: for `start = -1` and
`end = 2^63 - 1` the capacity `end - start` wraps to a negative number and
`make` panics; for `start = end = 2^63 - 1` the loop never exits. -/
theorem range_entry_fails_at_int_bounds :
    ((-1 : Int) ≤ 9223372036854775807 ∧
      NewRangeEntryWithRange (-1) 9223372036854775807 = .error .makesliceCapOutOfRange) ∧
    ((9223372036854775807 : Int) ≤ 9223372036854775807 ∧
      NewRangeEntryWithRange 9223372036854775807 9223372036854775807 = .error .outOfMemory) :=
  ⟨⟨by decide, rfl⟩, ⟨by decide, rfl⟩⟩

/-! ## Range-section decoding -/

theorem entryOffsetFrom_succ (B : List Byte) :
    ∀ (k o : Nat), entryOffsetFrom B o (k + 1)
      = entryOffsetFrom B o k + entryWidth B (entryOffsetFrom B o k) := by
  intro k
  induction k with
  | zero => intro o; rfl
  | succ k ih =>
    intro o
    rw [entryOffsetFrom, ih (o + entryWidth B o)]
    rfl

/-- The offset of entry `k` is 186 plus the widths of the entries before it. -/
theorem entryOffset_eq_sum (B : List Byte) (k : Nat) :
    entryOffset B k = 186 + ((List.range k).map fun j => entryWidth B (entryOffset B j)).sum := by
  induction k with
  | zero => rfl
  | succ k ih =>
    have h := entryOffsetFrom_succ B k 186
    unfold entryOffset at ih ⊢
    rw [h, List.range_succ, List.map_append, List.sum_append, ih]
    simp only [List.map_cons, List.map_nil, List.sum_cons, List.sum_nil, Nat.add_zero]
    rw [← ih]
    omega

/-- The range-entry loop appends `n` entries, the `k`-th of them the entry
encoded at the `k`-th offset. -/
theorem rangeEntriesLoop_entries (b : bits) :
    ∀ (n : Nat) (off : Int) (acc es : List RangeEntry), 0 ≤ off →
      off + 33 * n ≤ 1099511627776 → rangeEntriesLoop b n off acc = .ok es →
      ∃ new : List RangeEntry, es = acc ++ new ∧ new.length = n ∧
        ∀ (k : Nat) (hk : k < new.length),
          EntryAt b.bytes (entryOffsetFrom b.bytes off.toNat k) (new.get ⟨k, hk⟩) := by
  intro n
  induction n with
  | zero =>
    intro off acc es _ _ h
    simp only [rangeEntriesLoop, Except.ok.injEq] at h
    subst h
    exact ⟨[], by simp, rfl, fun k hk => absurd hk (by simp)⟩
  | succ n ih =>
    intro off acc es h0 hoff h
    push_cast at hoff
    have c4 : vendorIDSize = ((16 : Nat) : Int) := rfl
    have hv : vendorIDSize = 16 := rfl
    have g1 : b.getInt (off + 1) vendorIDSize
        = .ok ((bitsValue b.bytes (off.toNat + 1) 16 : Nat) : Int) := by
      rw [c4, getInt_of_nonneg b 16 (by omega) (by decide) (by push_cast; omega)]
      congr 3; omega
    have g2 : b.getInt (off + 1 + vendorIDSize) vendorIDSize
        = .ok ((bitsValue b.bytes (off.toNat + 17) 16 : Nat) : Int) := by
      rw [c4, getInt_of_nonneg b 16 (by omega) (by decide) (by push_cast; omega)]
      congr 3; omega
    rw [rangeEntriesLoop, getBit_of_nonneg b h0] at h
    cases hbit : bitAt b.bytes off.toNat
    · rw [hbit] at h
      simp only [bind, Except.bind, Bool.false_eq_true, if_false] at h
      rw [g1] at h
      simp only at h
      obtain ⟨new, hes, hlen, hall⟩ := ih _ _ es (by omega) (by omega) h
      have hnext : (off + 1 + vendorIDSize).toNat = off.toNat + entryWidth b.bytes off.toNat := by
        unfold entryWidth; rw [hbit]; simp only [Bool.false_eq_true, if_false]; omega
      refine ⟨NewRangeEntry (bitsValue b.bytes (off.toNat + 1) 16) :: new, ?_, ?_, ?_⟩
      · rw [hes]; simp
      · simp [hlen]
      · intro k hk
        cases k with
        | zero =>
          show EntryAt b.bytes off.toNat _
          unfold EntryAt
          rw [hbit]
          simp
        | succ k =>
          have hk' : k < new.length := by simpa using hk
          have := hall k hk'
          rw [hnext] at this
          exact this
    · rw [hbit] at h
      simp only [bind, Except.bind, if_true] at h
      rw [g1] at h
      simp only at h
      rw [g2] at h
      simp only at h
      cases hr : NewRangeEntryWithRange (bitsValue b.bytes (off.toNat + 1) 16)
          (bitsValue b.bytes (off.toNat + 17) 16) with
      | error p => rw [hr] at h; cases h
      | ok r =>
        rw [hr] at h
        obtain ⟨new, hes, hlen, hall⟩ := ih _ _ es (by omega) (by omega) h
        have hnext : (off + 1 + vendorIDSize + vendorIDSize).toNat
            = off.toNat + entryWidth b.bytes off.toNat := by
          unfold entryWidth; rw [hbit]; simp only [if_true]; omega
        refine ⟨r :: new, ?_, ?_, ?_⟩
        · rw [hes]; simp
        · simp [hlen]
        · intro k hk
          cases k with
          | zero =>
            show EntryAt b.bytes off.toNat _
            unfold EntryAt
            rw [hbit]
            simpa using hr
          | succ k =>
            have hk' : k < new.length := by simpa using hk
            have := hall k hk'
            rw [hnext] at this
            exact this

/-- C16: for every constructed record whose encoding-type bit 172 is 1,
`defaultConsent` is bit 173, the number of range entries is the 12-bit field
at bits [174,186), and the `k`-th entry is the one encoded at the offset
186 plus the widths of the entries before it, the width being 33 for an entry
whose flag bit is set and 17 otherwise. -/
theorem range_section_decoding (c : String) (B : List Byte) (uc : UserConsent)
    (hB : DecodeString c = .ok B) (h : NewUserConsent c = .ok (uc, none))
    (henc : bitAt B 172 = true) :
    uc.defaultConsent = bitAt B 173 ∧
    uc.rangeEntries.length = bitsValue B 174 12 ∧
    (∀ k, entryOffset B k
      = 186 + ((List.range k).map fun j => if bitAt B (entryOffset B j) then 33 else 17).sum) ∧
    ∀ (k : Nat) (hk : k < uc.rangeEntries.length),
      if bitAt B (entryOffset B k) then
        NewRangeEntryWithRange (bitsValue B (entryOffset B k + 1) 16)
          (bitsValue B (entryOffset B k + 17) 16) = .ok (uc.rangeEntries.get ⟨k, hk⟩)
      else uc.rangeEntries.get ⟨k, hk⟩ = NewRangeEntry (bitsValue B (entryOffset B k + 1) 16) := by
  have h1 : bitsValue B 172 1 = 1 := by rw [bitsValue_one, henc]; rfl
  rcases constructed_cases hB h with ⟨h0, _⟩ | ⟨_, es, hes, rfl⟩
  · exact absurd h1 h0
  · have hn := bitsValue_lt B 174 12
    obtain ⟨new, hnew, hlen, hall⟩ := rangeEntriesLoop_entries ⟨B⟩ _ _ [] es (by decide)
      (by unfold rangeEntryOffset; norm_num at hn; omega) hes
    simp only [List.nil_append] at hnew
    subst hnew
    refine ⟨rfl, hlen, fun k => entryOffset_eq_sum B k, fun k hk => ?_⟩
    exact hall k hk

/-- The range section of `token2`: default consent `false` and the five
entries 20, 200-400, 401-410, 515, 5000-5024. -/
theorem range_section_decoding_witness :
    record2.defaultConsent = false ∧ record2.rangeEntries.length = 5 ∧
    record2.rangeEntries = token2Entries ∧
    record2.rangeEntries.length = bitsValue token2Bytes 174 12 ∧
    entryOffset token2Bytes 0 = 186 ∧ entryOffset token2Bytes 1 = 203 ∧
    entryOffset token2Bytes 2 = 236 ∧ entryOffset token2Bytes 3 = 269 ∧
    entryOffset token2Bytes 4 = 286 :=
  ⟨rfl, rfl, rfl, (range_section_decoding token2 token2Bytes record2 rfl rfl rfl).2.1,
    rfl, rfl, rfl, rfl, rfl⟩

/-! ## `getSixBitString` -/

theorem charCode_toNat (n : Nat) (h : n < 55296) : (Char.ofNat n).toNat = n := by
  have hv : n.isValidChar := Or.inl h
  unfold Char.ofNat
  rw [dif_pos hv]
  simp [Char.ofNatAux, Char.toNat, UInt32.toNat]

/-- The loop of `getSixBitString` appends one character for each six-bit slot. -/
theorem getSixBitStringLoop_eq (b : bits) (start : Nat) :
    ∀ (n i : Nat) (str : List Char), start + 6 * (i + n) ≤ 9223372036854775808 →
      bits.getSixBitStringLoop b start n i str
        = .ok (str ++ (List.range n).map fun k =>
            Char.ofNat (bitsValue b.bytes (start + 6 * (i + k)) 6 + 65)) := by
  intro n
  induction n with
  | zero => intro i str _; simp [bits.getSixBitStringLoop]
  | succ n ih =>
    intro i str hb
    have hidx : wrap64 ((start : Int) + wrap64 ((i : Int) * 6)) = ((start + 6 * i : Nat) : Int) := by
      rw [wrap64_of_range (by omega : -9223372036854775808 ≤ (i : Int) * 6) (by omega),
        wrap64_of_range (by omega) (by omega)]
      push_cast; omega
    have h6 : (6 : Int) = ((6 : Nat) : Int) := rfl
    have hv := bitsValue_lt b.bytes (start + 6 * i) 6
    have hcode : (wrap64 (((bitsValue b.bytes (start + 6 * i) 6 : Nat) : Int) + 65)).toNat
        = bitsValue b.bytes (start + 6 * i) 6 + 65 := by
      rw [wrap64_of_range (by omega) (by norm_num at hv; omega)]
      omega
    have hnext := ih (i + 1) (str ++ [Char.ofNat (bitsValue b.bytes (start + 6 * i) 6 + 65)])
      (by omega)
    simp only [Nat.cast_add, Nat.cast_one] at hnext
    rw [bits.getSixBitStringLoop, hidx, h6, getInt_natCast b _ 6 (by decide) (by omega)]
    simp only [bind, Except.bind, hcode]
    rw [hnext, List.range_succ_eq_map]
    simp only [List.map_cons, List.map_map, List.append_assoc, List.singleton_append,
      Nat.add_zero, Except.ok.injEq, List.append_cancel_left_eq, List.cons.injEq, true_and]
    apply List.map_congr_left
    intro k _
    have hk : i + (k + 1) = i + 1 + k := by omega
    simp only [Function.comp, Nat.succ_eq_add_one, hk]

/-- C17 (amended): for every byte sequence, every `start ≥ 0` and every
`width ≥ 0` with `start + width ≤ 2^63` (so that no bit index overflows): if
`width` is not a multiple of 6 then `getSixBitString start width` is the empty
string; otherwise, when the `width / 6` four-byte runes are within the limit
`maxAlloc` of `make` (and the machine can allocate them), it has exactly
`width / 6` characters and its `i`-th character has the code point
`65 + getInt (start + 6 * i) 6`, which lies in `65..128`; beyond that limit
`make` panics.  The `ConsentLanguage` of every constructed record has exactly
two characters. -/
theorem six_bit_string (b : bits) (start width : Int) (h0 : 0 ≤ start) (hw0 : 0 ≤ width)
    (hs : start + width ≤ 9223372036854775808) :
    (Int.tmod width 6 ≠ 0 → b.getSixBitString start width = .ok "") ∧
    (Int.tmod width 6 = 0 → 4 * Int.tdiv width 6 > maxAlloc →
      b.getSixBitString start width = .error .makesliceLenOutOfRange) ∧
    (Int.tmod width 6 = 0 → 4 * Int.tdiv width 6 ≤ maxAlloc →
      ∃ s : String, b.getSixBitString start width = .ok s ∧
      s.length = (Int.tdiv width 6).toNat ∧
      ∀ (i : Nat) (hi : i < s.data.length),
        b.getInt (start + 6 * i) 6 = .ok ((bitsValue b.bytes (start.toNat + 6 * i) 6 : Nat) : Int) ∧
        (s.data.get ⟨i, hi⟩).toNat = 65 + bitsValue b.bytes (start.toNat + 6 * i) 6 ∧
        bitsValue b.bytes (start.toNat + 6 * i) 6 < 64) ∧
    (∀ (c : String) (B : List Byte) (uc : UserConsent), DecodeString c = .ok B →
      NewUserConsent c = .ok (uc, none) → uc.ConsentLanguage.length = 2) := by
  refine ⟨?_, ?_, ?_, ?_⟩
  · intro hm
    unfold bits.getSixBitString
    rw [if_pos hm]
  · intro hm hbig
    unfold bits.getSixBitString
    rw [if_neg (by simpa using hm)]
    simp only
    rw [if_pos (Or.inr hbig)]
  · intro hm hfit
    obtain ⟨s, rfl⟩ := Int.eq_ofNat_of_zero_le h0
    obtain ⟨w, rfl⟩ := Int.eq_ofNat_of_zero_le hw0
    have hd : Int.tdiv (w : Int) 6 = ((w / 6 : Nat) : Int) := by
      rw [Int.tdiv_eq_ediv (by omega) (by omega)]; omega
    have hloop := getSixBitStringLoop_eq b s (w / 6) 0 [] (by omega)
    rw [hd] at hfit
    unfold bits.getSixBitString
    rw [if_neg (by simpa using hm), hd]
    simp only [Int.toNat_ofNat, Nat.cast_zero] at hloop ⊢
    rw [if_neg (by omega), hloop]
    refine ⟨_, rfl, ?_, ?_⟩
    · simp [String.length]
    · intro i hi
      have hi' : i < w / 6 := by simpa using hi
      have hv := bitsValue_lt b.bytes (s + 6 * i) 6
      refine ⟨?_, ?_, by norm_num at hv; exact hv⟩
      · have h6 : (6 : Int) = ((6 : Nat) : Int) := rfl
        have hc : (s : Int) + 6 * (i : Int) = ((s + 6 * i : Nat) : Int) := by push_cast; rfl
        rw [hc, h6, getInt_natCast b _ 6 (by decide) (by omega)]
      · simp only [List.nil_append, List.get_eq_getElem, List.getElem_map, List.getElem_range,
          Nat.zero_add]
        rw [charCode_toNat _ (by norm_num at hv; omega)]; omega
  · intro c B uc hB h
    rcases constructed_cases hB h with ⟨_, rfl⟩ | ⟨_, es, _, rfl⟩ <;> rfl

/-- The language of `token3` is `PL`: two letters, read at bits [108,120). -/
theorem six_bit_string_witness :
    bits.getSixBitString ⟨token3Bytes⟩ 108 12 = .ok "PL" ∧ record3.ConsentLanguage = "PL" ∧
    record3.ConsentLanguage.length = 2 ∧
    bits.getSixBitString ⟨token3Bytes⟩ 108 11 = .ok "" ∧
    (∃ s : String, bits.getSixBitString ⟨token3Bytes⟩ 108 12 = .ok s ∧
      s.length = (Int.tdiv 12 6).toNat ∧
      ∀ (i : Nat) (hi : i < s.data.length),
        bits.getInt ⟨token3Bytes⟩ (108 + 6 * i) 6
          = .ok ((bitsValue token3Bytes ((108 : Int).toNat + 6 * i) 6 : Nat) : Int) ∧
        (s.data.get ⟨i, hi⟩).toNat = 65 + bitsValue token3Bytes ((108 : Int).toNat + 6 * i) 6 ∧
        bitsValue token3Bytes ((108 : Int).toNat + 6 * i) 6 < 64) :=
  ⟨rfl, rfl,
    (six_bit_string ⟨token3Bytes⟩ 108 12 (by decide) (by decide) (by decide)).2.2.2
      token3 token3Bytes record3 rfl rfl,
    (six_bit_string ⟨token3Bytes⟩ 108 11 (by decide) (by decide) (by decide)).1 (by decide),
    (six_bit_string ⟨token3Bytes⟩ 108 12 (by decide) (by decide) (by decide)).2.2.1
      (by decide) (by decide)⟩

/-- C17 as stated fails in two ways.  At the largest `int`: with
`start = 2^63 - 1` and width 6 the second bit index wraps to `-2^63`, and the
read panics instead of giving one character.  At a large width: with
`start = 0` and `width = 6 * 2^60` the call `make([]rune, 2^60)` asks for
`2^62` bytes and panics instead of giving `2^60` characters. -/
theorem six_bit_string_panics_on_overflow :
    ((0 : Int) ≤ 9223372036854775807 ∧ Int.tmod 6 6 = 0 ∧
      bits.getSixBitString ⟨token3Bytes⟩ 9223372036854775807 6 = .error .indexOutOfRange) ∧
    ((0 : Int) ≤ 6917529027641081856 ∧ Int.tmod 6917529027641081856 6 = 0 ∧
      Int.tdiv 6917529027641081856 6 = 1152921504606846976 ∧
      bits.getSixBitString ⟨token3Bytes⟩ 0 6917529027641081856
        = .error .makesliceLenOutOfRange) :=
  ⟨⟨by decide, by decide, rfl⟩, ⟨by decide, by decide, by decide, rfl⟩⟩

/-! ## The encoding type gates the vendor payload -/

/-- In RANGE mode the vendor query is the range search, inverted by the
default consent. -/
theorem IsVendorAllowed_range (uc : UserConsent) (fuel : Nat) (vendorId : Int)
    (h : uc.vendorEncodingType = vendorEncodingRange) :
    uc.IsVendorAllowed fuel vendorId
      = (uc.findVendorIdInRange fuel vendorId).map
          (Except.map fun present => present != uc.defaultConsent) := by
  unfold UserConsent.IsVendorAllowed
  rw [if_pos h]
  cases uc.findVendorIdInRange fuel vendorId with
  | none => rfl
  | some r =>
    cases r with
    | error p => rfl
    | ok present => rfl

/-- C18: for every constructed record, if bit 172 is 0 then `rangeEntries` is
empty, `defaultConsent` is `false` and `IsVendorAllowed` is the read of one
bit of the decoded bytes; if bit 172 is 1 then `IsVendorAllowed v` is
`findVendorIdInRange v != defaultConsent`, and every record in RANGE mode with
the same `defaultConsent` and `rangeEntries` gives the same answer, whatever
its bits are. -/
theorem encoding_type_gates (c : String) (B : List Byte) (uc : UserConsent)
    (hB : DecodeString c = .ok B) (h : NewUserConsent c = .ok (uc, none)) :
    (bitAt B 172 = false →
      uc.rangeEntries = [] ∧ uc.defaultConsent = false ∧
      ∀ (fuel : Nat) (v : Int), uc.IsVendorAllowed fuel v
        = some (bits.getBit ⟨B⟩ (wrap64 (wrap64 (vendorBitFieldOffset + v) - 1)))) ∧
    (bitAt B 172 = true →
      ∀ (fuel : Nat) (v : Int),
        uc.IsVendorAllowed fuel v
          = (uc.findVendorIdInRange fuel v).map
              (Except.map fun present => present != uc.defaultConsent) ∧
        ∀ uc2 : UserConsent, uc2.vendorEncodingType = vendorEncodingRange →
          uc2.defaultConsent = uc.defaultConsent → uc2.rangeEntries = uc.rangeEntries →
          uc2.IsVendorAllowed fuel v = uc.IsVendorAllowed fuel v) := by
  constructor
  · intro henc
    obtain ⟨rfl, hmode⟩ := constructed_bitfield hB h henc
    exact ⟨rfl, rfl, fun fuel v => IsVendorAllowed_bitfield _ fuel v hmode⟩
  · intro henc fuel v
    obtain ⟨hmode, _, _⟩ := constructed_range hB h henc
    refine ⟨IsVendorAllowed_range uc fuel v hmode, fun uc2 h2 hd he => ?_⟩
    rw [IsVendorAllowed_range uc fuel v hmode, IsVendorAllowed_range uc2 fuel v h2, hd]
    unfold UserConsent.findVendorIdInRange
    rw [he]

/-- On `token1` (BITFIELD) the vendor payload is empty and vendor 5 is bit 177;
on `token2` (RANGE) vendor 225 is found by the range search. -/
theorem encoding_type_gates_witness :
    (record1.rangeEntries = [] ∧ record1.defaultConsent = false ∧
      ∀ (fuel : Nat) (v : Int), record1.IsVendorAllowed fuel v
        = some (bits.getBit ⟨token1Bytes⟩ (wrap64 (wrap64 (vendorBitFieldOffset + v) - 1)))) ∧
    record2.IsVendorAllowed 5 225
      = (record2.findVendorIdInRange 5 225).map
          (Except.map fun present => present != record2.defaultConsent) ∧
    record2.IsVendorAllowed 5 225 = some (.ok true) :=
  ⟨(encoding_type_gates token1 token1Bytes record1 rfl rfl).1 rfl,
    ((encoding_type_gates token2 token2Bytes record2 rfl rfl).2 rfl 5 225).1, rfl⟩

/-! ## The range search has no false positives -/

theorem goIndex_mem {α : Type} {xs : List α} {i : Int} {x : α} (h : goIndex xs i = .ok x) :
    x ∈ xs := by
  unfold goIndex at h
  by_cases hneg : i < 0
  · rw [if_pos hneg] at h; cases h
  · rw [if_neg hneg] at h
    cases hget : xs.get? i.toNat with
    | none => rw [hget] at h; cases h
    | some y =>
      rw [hget] at h
      simp only [Except.ok.injEq] at h
      subst h
      exact List.get?_mem hget

/-- A probe that reports "present" has found an entry containing the id. -/
theorem probe_ret_true {es : List RangeEntry} {v index : Int}
    (h : probe es v index = .ok (.ret true)) : ∃ e ∈ es, e.containsVendorId v = true := by
  unfold probe at h
  by_cases hg : index ≥ 0 ∧ index < (es.length : Int)
  · simp only [hg, and_self, if_true] at h
    cases hget : goIndex es index with
    | error p => rw [hget] at h; cases h
    | ok e =>
      rw [hget] at h
      simp only [bind, Except.bind] at h
      by_cases hc : e.containsVendorId v = true
      · exact ⟨e, goIndex_mem hget, hc⟩
      · rw [if_neg hc] at h
        split at h
        · simp [pure, Except.pure] at h
        · split at h <;> simp [pure, Except.pure] at h
  · rw [if_neg hg] at h
    simp [pure, Except.pure] at h

/-- The search loop reports "present" only for an id that some entry contains. -/
theorem findLoop_sound {es : List RangeEntry} {v : Int} :
    ∀ (fuel : Nat) (index : Int), findLoop es v fuel index = some (.ok true) →
      ∃ e ∈ es, e.containsVendorId v = true := by
  intro fuel
  induction fuel with
  | zero => intro index h; simp [findLoop] at h
  | succ n ih =>
    intro index h
    rw [findLoop] at h
    cases hp : probe es v index with
    | error p => rw [hp] at h; simp at h
    | ok r =>
      rw [hp] at h
      cases r with
      | ret present =>
        simp only [Option.some.injEq, Except.ok.injEq] at h
        subst h
        exact probe_ret_true hp
      | next i => exact ih i h

/-- C19: for every range-entry list and every `vendorId`, if
`findVendorIdInRange` returns `true` then some entry of the list contains
`vendorId`; on an empty list it returns `false`; hence in RANGE mode with
`defaultConsent` false every vendor that `IsVendorAllowed` reports as allowed
is contained in some range entry. -/
theorem range_search_sound (uc : UserConsent) (fuel : Nat) (vendorId : Int) :
    (uc.findVendorIdInRange fuel vendorId = some (.ok true) →
      ∃ e ∈ uc.rangeEntries, e.containsVendorId vendorId = true) ∧
    (uc.rangeEntries = [] → uc.findVendorIdInRange fuel vendorId = some (.ok false)) ∧
    (uc.vendorEncodingType = vendorEncodingRange → uc.defaultConsent = false →
      uc.IsVendorAllowed fuel vendorId = some (.ok true) →
      ∃ e ∈ uc.rangeEntries, e.containsVendorId vendorId = true) := by
  have hfind : uc.findVendorIdInRange fuel vendorId = some (.ok true) →
      ∃ e ∈ uc.rangeEntries, e.containsVendorId vendorId = true := by
    intro h
    unfold UserConsent.findVendorIdInRange at h
    by_cases hz : (uc.rangeEntries.length : Int) = 0
    · simp [hz] at h
    · simp only [hz, if_false] at h
      exact findLoop_sound fuel _ h
  refine ⟨hfind, ?_, ?_⟩
  · intro he
    unfold UserConsent.findVendorIdInRange
    simp [he]
  · intro hmode hdef hallow
    rw [IsVendorAllowed_range uc fuel vendorId hmode, hdef] at hallow
    apply hfind
    cases hr : uc.findVendorIdInRange fuel vendorId with
    | none => rw [hr] at hallow; simp at hallow
    | some r =>
      rw [hr] at hallow
      cases r with
      | error p => simp [Except.map] at hallow
      | ok present =>
        simp only [Option.map_some', Except.map, Option.some.injEq, Except.ok.injEq] at hallow
        cases present
        · simp at hallow
        · rfl

/-- On `token2` vendor 225 is allowed, and it is contained in an entry. -/
theorem range_search_sound_witness :
    record2.IsVendorAllowed 5 225 = some (.ok true) ∧
    ∃ e ∈ record2.rangeEntries, e.containsVendorId 225 = true :=
  ⟨rfl, (range_search_sound record2 5 225).2.2 rfl rfl rfl⟩

/-! ## Vendor 0 -/

/-- C20: for every constructed record whose `vendorEncodingType` is BITFIELD,
`IsVendorAllowed 0` is `false`: vendor 0 reads bit 172, the encoding-type bit,
which is 0 in BITFIELD mode. -/
theorem vendor_zero_denied (c : String) (B : List Byte) (uc : UserConsent)
    (hB : DecodeString c = .ok B) (h : NewUserConsent c = .ok (uc, none))
    (hmode : uc.vendorEncodingType ≠ vendorEncodingRange) (fuel : Nat) :
    bitAt B 172 = false ∧
    uc.IsVendorAllowed fuel 0 = some (uc.bits.getBit 172) ∧
    uc.IsVendorAllowed fuel 0 = some (.ok false) := by
  have henc : bitAt B 172 = false := by
    rcases constructed_cases hB h with ⟨h0, rfl⟩ | ⟨h1, es, _, rfl⟩
    · rw [bitsValue_one] at h0
      cases hb : bitAt B 172 with
      | false => rfl
      | true => rw [hb] at h0; exact absurd rfl h0
    · exfalso
      apply hmode
      show ((bitsValue B 172 1 : Nat) : Int) = 1
      rw [h1]; rfl
  have hq := bitfield_query_eq hB h henc fuel (le_refl (0 : Int)) (by decide)
  refine ⟨henc, ?_, ?_⟩
  · rw [IsVendorAllowed_bitfield _ _ _ hmode]
    rfl
  · rw [hq]
    show some (Except.ok (bitAt B 172)) = _
    rw [henc]

/-- Vendor 0 is denied on `token1` and on `token3`. -/
theorem vendor_zero_denied_witness :
    record1.IsVendorAllowed 0 0 = some (.ok false) ∧
    record3.IsVendorAllowed 0 0 = some (.ok false) :=
  ⟨(vendor_zero_denied token1 token1Bytes record1 rfl rfl (by decide) 0).2.2,
    (vendor_zero_denied token3 token3Bytes record3 rfl rfl (by decide) 0).2.2⟩

end Consent
